import Mathlib

/-!
Verification of the STT-dashboard timeline/metrics engine.

Shallow embedding of the Python sources under `stta/metrics/` into Lean:
  - `stta/metrics/timeline.py`             (TimelineCalculator)
  - `stta/metrics/interaction_patterns.py` (compute_interaction_metrics)
  - `stta/metrics/speaker_level.py`        (_compute_gini)
  - `stta/metrics/call_level.py`           (compute_call_metrics, _count_interruptions)

Modelling conventions:
  - Python floats are modelled as exact rationals (ℚ).
  - A pandas DataFrame of utterances is modelled as a `List Utterance`.
    The nullable timing columns are total here: every embedded computation
    first filters on `valid_time`, and invalid rows' timing fields are never
    read by any embedded function, so totality is faithful.
  - Python dicts keyed by speaker (`defaultdict`) are modelled as functions
    `String → ℚ` (or `String → Int`) that are 0 outside the inserted keys,
    together with an explicit domain list where the key set matters.
    Iteration over `dict.items()` guarded by `cnt > 0` is modelled as
    iteration over the full speaker domain with the same guard: keys never
    inserted hold the default 0, for which the guard is false either way.
  - Python's stable `list.sort(key=...)` is modelled by `List.insertionSort`
    with the corresponding total key order (a stable sort).
-/

/-- One row of the utterances table (schema `stta/schemas/utterances.py`).
Text-statistics columns (`text`, `word_count`, `char_count`) and identifier
columns are not modelled: no verified computation reads them. -/
structure Utterance where
  utterance_index : Nat
  speaker : String
  start_sec : ℚ
  end_sec : ℚ
  duration_sec : ℚ
  valid_time : Bool
deriving DecidableEq, Repr

/-- A sweep-line event `(time, delta, speaker)` as built in
`compute_timeline_stats` (timeline.py line 74-79): delta = +1 for a start,
-1 for an end. -/
structure Event where
  t : ℚ
  delta : Int
  speaker : String
deriving DecidableEq, Repr

/-- The sort order of timeline.py line 83: `events.sort(key=lambda x: (x[0], -x[1]))`,
i.e. lexicographic on `(time, -delta)`: ascending time, and at equal times
starts (+1, key -1) before ends (-1, key +1). -/
def eventLe (a b : Event) : Prop :=
  a.t < b.t ∨ (a.t = b.t ∧ b.delta ≤ a.delta)

instance : DecidableRel eventLe :=
  fun a b => inferInstanceAs (Decidable (_ ∨ _))

instance : IsTotal Event eventLe where
  total a b := by
    rcases lt_trichotomy a.t b.t with h | h | h
    · exact Or.inl (Or.inl h)
    · rcases le_total b.delta a.delta with hd | hd
      · exact Or.inl (Or.inr ⟨h, hd⟩)
      · exact Or.inr (Or.inr ⟨h.symm, hd⟩)
    · exact Or.inr (Or.inl h)

instance : IsTrans Event eventLe where
  trans a b c hab hbc := by
    rcases hab with h1 | ⟨h1, hd1⟩
    · rcases hbc with h2 | ⟨h2, _⟩
      · exact Or.inl (h1.trans h2)
      · exact Or.inl (h2 ▸ h1)
    · rcases hbc with h2 | ⟨h2, hd2⟩
      · exact Or.inl (h1 ▸ h2)
      · exact Or.inr ⟨h1.trans h2, hd2.trans hd1⟩

/-- State of the sweep loop of `compute_timeline_stats` (timeline.py lines
85-115): active segment counts per speaker, time of the previously processed
event, accumulated speech time `L`, overlap `O`, and fair apportionment. -/
structure SweepState where
  active : String → Int
  last_t : Option ℚ
  L : ℚ
  O : ℚ
  apportioned : String → ℚ

/-- Initial sweep state: empty `defaultdict(int)` / `defaultdict(float)`,
`last_t = None`, `L = O = 0.0`. -/
def initSweep : SweepState :=
  { active := fun _ => 0, last_t := none, L := 0, O := 0, apportioned := fun _ => 0 }

/-- `active_count` of timeline.py line 99:
`sum(1 for cnt in active_speakers.values() if cnt > 0)`, over the speaker
domain (see the dict modelling convention above). -/
def active_count (speakers : List String) (active : String → Int) : Nat :=
  speakers.countP fun s => 0 < active s

/-- One iteration of the event loop of timeline.py lines 93-115: process the
segment `[last_t, t)` if it is nonempty, then apply the event's delta and
advance `last_t`. -/
def sweepStep (speakers : List String) (st : SweepState) (e : Event) : SweepState :=
  let st' :=
    match st.last_t with
    | none => st
    | some lt =>
      if lt < e.t then
        let duration := e.t - lt
        let ac := active_count speakers st.active
        let stL :=
          if 1 ≤ ac then
            { st with
                L := st.L + duration
                apportioned := fun s =>
                  if 0 < st.active s then st.apportioned s + duration * (1 / (ac : ℚ))
                  else st.apportioned s }
          else st
        if 2 ≤ ac then { stL with O := stL.O + duration } else stL
      else st
  { st' with
      active := Function.update st'.active e.speaker (st'.active e.speaker + e.delta)
      last_t := some e.t }

/-- Minimum of a list of rationals (`Series.min()` over a nonempty column);
0 for the empty list, which the callers never hit. -/
def listMin : List ℚ → ℚ
  | [] => 0
  | x :: xs => xs.foldl min x

/-- Maximum of a list of rationals (`Series.max()`). -/
def listMax : List ℚ → ℚ
  | [] => 0
  | x :: xs => xs.foldl max x

/-- Output record of `compute_timeline_stats` (timeline.py lines 130-137).
The dict fields are modelled as total functions plus the speaker domain
`speakers` (the distinct speakers of the valid rows): every key of the
Python `apportioned` / `raw_speaking` dicts lies in that domain, and both
functions are 0 outside the keys actually inserted. -/
structure TimelineStats where
  T : ℚ
  L : ℚ
  O : ℚ
  S : ℚ
  apportioned : String → ℚ
  raw_speaking : String → ℚ
  speakers : List String

/-- The event list of timeline.py lines 76-79: each valid row appends its
start event `(start_sec, +1, speaker)` followed by its end event
`(end_sec, -1, speaker)`. -/
def buildEvents (valid : List Utterance) : List Event :=
  valid.flatMap fun u =>
    [{ t := u.start_sec, delta := 1, speaker := u.speaker },
     { t := u.end_sec, delta := -1, speaker := u.speaker }]

/-- The sorted event list of timeline.py line 83 (stable sort by the
`(time, -delta)` key). -/
def sortedEvents (valid : List Utterance) : List Event :=
  (buildEvents valid).insertionSort eventLe

/-- `TimelineCalculator.compute_timeline_stats` (timeline.py lines 34-137),
translated clause by clause.  `raw_speaking` is the accumulation loop of
lines 121-123; `T` is `end_sec.max() - start_sec.min()` over valid rows. -/
def compute_timeline_stats (utts : List Utterance) : TimelineStats :=
  let valid := utts.filter fun u => u.valid_time
  if valid.isEmpty then
    { T := 0, L := 0, O := 0, S := 0
      apportioned := fun _ => 0, raw_speaking := fun _ => 0, speakers := [] }
  else
    let T := listMax (valid.map fun u => u.end_sec) - listMin (valid.map fun u => u.start_sec)
    let speakers := (valid.map fun u => u.speaker).dedup
    let final := (sortedEvents valid).foldl (sweepStep speakers) initSweep
    let S := max 0 (T - final.L)
    let raw := valid.foldl
      (fun f u => Function.update f u.speaker (f u.speaker + u.duration_sec))
      (fun _ => 0)
    { T := T, L := final.L, O := final.O, S := S
      apportioned := final.apportioned, raw_speaking := raw, speakers := speakers }

/-- Key order of `sort_values('start_sec')` (pandas stable sort by start time). -/
def startLe (u v : Utterance) : Prop :=
  u.start_sec ≤ v.start_sec

instance : DecidableRel startLe :=
  fun u v => inferInstanceAs (Decidable (_ ≤ _))

instance : IsTotal Utterance startLe where
  total u v := le_total u.start_sec v.start_sec

instance : IsTrans Utterance startLe where
  trans _ _ _ h1 h2 := le_trans h1 h2

/-- Key order of `sort_values('utterance_index')` (pandas stable sort by index). -/
def indexLe (u v : Utterance) : Prop :=
  u.utterance_index ≤ v.utterance_index

instance : DecidableRel indexLe :=
  fun u v => inferInstanceAs (Decidable (_ ≤ _))

instance : IsTotal Utterance indexLe where
  total u v := Nat.le_total u.utterance_index v.utterance_index

instance : IsTrans Utterance indexLe where
  trans _ _ _ h1 h2 := le_trans h1 h2

/-- One turn record emitted by `compute_turns` (timeline.py lines 246-266). -/
structure Turn where
  speaker : String
  start_sec : ℚ
  end_sec : ℚ
  duration_sec : ℚ
  utterance_count : Nat
deriving DecidableEq, Repr

/-- The accumulation loop of `compute_turns` (timeline.py lines 237-266):
`cur`, `ts`, `te`, `cnt` are `current_speaker`, `turn_start`, `turn_end`,
`utt_count`; the final turn is emitted when the input runs out. -/
def turnsLoop (cur : String) (ts te : ℚ) (cnt : Nat) : List Utterance → List Turn
  | [] => [{ speaker := cur, start_sec := ts, end_sec := te
             duration_sec := te - ts, utterance_count := cnt }]
  | u :: rest =>
    if u.speaker = cur then
      turnsLoop cur ts (max te u.end_sec) (cnt + 1) rest
    else
      { speaker := cur, start_sec := ts, end_sec := te
        duration_sec := te - ts, utterance_count := cnt } ::
        turnsLoop u.speaker u.start_sec u.end_sec 1 rest

/-- `TimelineCalculator.compute_turns` (timeline.py lines 204-270): filter the
valid rows, sort them by `utterance_index`, and group maximal runs of
consecutive same-speaker rows into turns. -/
def compute_turns (utts : List Utterance) : List Turn :=
  let valid := utts.filter fun u => u.valid_time
  match valid.insertionSort indexLe with
  | [] => []
  | first :: rest => turnsLoop first.speaker first.start_sec first.end_sec 1 rest

/-- The monologue-detection loop of `compute_interaction_metrics`
(interaction_patterns.py lines 59-75): `cur` is `current_speaker`
(`none` = Python `None`), `consec` is `consecutive_count`, `acc` the count
of monologue segments found so far; the trailing check of lines 73-75 is
the `[]` case. -/
def monoLoop (cur : Option String) (consec : Nat) (acc : Nat) : List Utterance → Nat
  | [] => if 3 ≤ consec then acc + 1 else acc
  | u :: rest =>
    if some u.speaker = cur then
      monoLoop cur (consec + 1) acc rest
    else
      monoLoop (some u.speaker) 1 (if 3 ≤ consec then acc + 1 else acc) rest

/-- The fields of the record returned by `compute_interaction_metrics`
(interaction_patterns.py lines 85-110) that concern monologues and
turn-taking.  The gap/response-delay statistics (means, medians, standard
deviations) are not modelled: no claim concerns them. -/
structure InteractionMetrics where
  monologue_segments : Nat
  turn_taking_balance : ℚ
  agent_turns : Nat
  customer_turns : Nat
deriving DecidableEq, Repr

/-- `compute_interaction_metrics` (interaction_patterns.py lines 9-110),
restricted to the modelled fields.  Fewer than 2 valid rows yield the
all-zero record of `_empty_interaction_metrics`.  The valid rows are sorted
by `start_sec` (line 27) before any per-row loop runs; `agent_turns` and
`customer_turns` are the `groupby('speaker').size()` row counts of lines
78-80, and `turn_taking_balance` is line 83. -/
def compute_interaction_metrics (utts : List Utterance) : InteractionMetrics :=
  let valid := utts.filter fun u => u.valid_time
  if valid.length < 2 then
    { monologue_segments := 0, turn_taking_balance := 0
      agent_turns := 0, customer_turns := 0 }
  else
    let sorted := valid.insertionSort startLe
    let monologue_segments := monoLoop none 0 0 sorted
    let agent_turns := (sorted.filter fun u => u.speaker = "AGENT").length
    let customer_turns := (sorted.filter fun u => u.speaker = "CUSTOMER").length
    let turn_balance :=
      if 0 < max agent_turns customer_turns then
        (min agent_turns customer_turns : ℚ) / (max agent_turns customer_turns : ℚ)
      else 0
    { monologue_segments := monologue_segments, turn_taking_balance := turn_balance
      agent_turns := agent_turns, customer_turns := customer_turns }

/-- The enumerate-and-accumulate loop of `_compute_gini`
(speaker_level.py lines 148-150): `cumsum += i * val` with 1-based `i`. -/
def giniCumsum (values : List ℚ) : ℚ :=
  values.enum.foldl (fun c p => c + ((p.1 : ℚ) + 1) * p.2) 0

/-- `_compute_gini` (speaker_level.py lines 122-156), translated clause by
clause: early return 0 for fewer than 2 inputs, drop the non-positive
values, return 0 again if fewer than 2 remain, sort ascending and apply
`G = (2 * cumsum) / (n * total) - (n + 1) / n`. -/
def compute_gini (values : List ℚ) : ℚ :=
  if values.length < 2 then 0
  else
    let values1 := values.filter fun v => 0 < v
    if values1.length < 2 then 0
    else
      let sortedv := values1.insertionSort (· ≤ ·)
      let n := sortedv.length
      let cumsum := giniCumsum sortedv
      let total := sortedv.sum
      (2 * cumsum) / ((n : ℚ) * total) - ((n : ℚ) + 1) / (n : ℚ)

/-- The interruption-counter dict of `_count_interruptions`
(call_level.py lines 156-162), one field per key. -/
structure InterruptionCounts where
  total : Nat
  agent : Nat
  customer : Nat
  other : Nat
  unknown : Nat
deriving DecidableEq, Repr

/-- The body of the interruption loop (call_level.py lines 172-176): bump
`total`, then bump the key equal to the interrupting speaker if the dict has
one.  The membership test `interrupting_speaker in interruptions` ranges
over all five keys, including the literal key `"total"`. -/
def bumpInterruptions (c : InterruptionCounts) (spk : String) : InterruptionCounts :=
  let c1 := { c with total := c.total + 1 }
  if spk = "total" then { c1 with total := c1.total + 1 }
  else if spk = "AGENT" then { c1 with agent := c1.agent + 1 }
  else if spk = "CUSTOMER" then { c1 with customer := c1.customer + 1 }
  else if spk = "OTHER" then { c1 with other := c1.other + 1 }
  else if spk = "UNKNOWN" then { c1 with unknown := c1.unknown + 1 }
  else c1

/-- Adjacent pairs `(sorted[i], sorted[i+1])` of the `for i in range(len-1)`
loops over a sorted utterance list. -/
def adjacentPairs (l : List Utterance) : List (Utterance × Utterance) :=
  l.zip l.tail

/-- One iteration of the interruption loop (call_level.py lines 164-176):
utterance i+1 interrupts utterance i iff it starts before i ends and has a
different speaker. -/
def interStep (c : InterruptionCounts) (p : Utterance × Utterance) : InterruptionCounts :=
  if p.2.start_sec < p.1.end_sec ∧ p.2.speaker ≠ p.1.speaker then
    bumpInterruptions c p.2.speaker
  else c

/-- `_count_interruptions` (call_level.py lines 141-178): scan the valid
rows sorted by `start_sec`, attributing each interruption to the
interrupting (later) speaker. -/
def count_interruptions (utts : List Utterance) : InterruptionCounts :=
  let valid := utts.filter fun u => u.valid_time
  let sorted := valid.insertionSort startLe
  (adjacentPairs sorted).foldl interStep
    { total := 0, agent := 0, customer := 0, other := 0, unknown := 0 }

/-- The fields of the record returned by `compute_call_metrics`
(call_level.py lines 90-134) that the claims concern: the four timeline
numbers, the derived ratios of lines 41-44, and the interruption counts of
lines 130-133 (note: the dict's `UNKNOWN` counter is not exposed).
`speech_to_silence_ratio` is `L / S if S > 0 else float('inf')`; the float
infinity is modelled as `none`.  The utterance/word/gap/turn statistics are
not modelled: no claim concerns them. -/
structure CallMetrics where
  total_duration : ℚ
  speech_time : ℚ
  silence_time : ℚ
  overlap_time : ℚ
  silence_ratio : ℚ
  speech_ratio : ℚ
  overlap_ratio : ℚ
  speech_to_silence_ratio : Option ℚ
  interruptions_total : Nat
  interruptions_by_agent : Nat
  interruptions_by_customer : Nat
  interruptions_by_other : Nat
deriving DecidableEq, Repr

/-- `compute_call_metrics` (call_level.py lines 11-138), restricted to the
modelled fields.  `T`, `L`, `O`, `S` come from the pre-computed
`timeline_stats` argument exactly as in the source. -/
def compute_call_metrics (utts : List Utterance) (stats : TimelineStats) : CallMetrics :=
  let T := stats.T
  let L := stats.L
  let O := stats.O
  let S := stats.S
  let silence_r := if 0 < T then S / T else 0
  let speech_r := if 0 < T then L / T else 0
  let overlap_r := if 0 < T then O / T else 0
  let s2s : Option ℚ := if 0 < S then some (L / S) else none
  let interruptions := count_interruptions utts
  { total_duration := T, speech_time := L, silence_time := S, overlap_time := O
    silence_ratio := silence_r, speech_ratio := speech_r, overlap_ratio := overlap_r
    speech_to_silence_ratio := s2s
    interruptions_total := interruptions.total
    interruptions_by_agent := interruptions.agent
    interruptions_by_customer := interruptions.customer
    interruptions_by_other := interruptions.other }

/-- Modelled from the spec (glossary "Turn", §4.2): the maximal runs of
consecutive equal elements of a list, each with its length.  Used to state
what the spec means by "turns" (maximal runs of consecutive same-speaker
utterances) and by "monologue segments" (runs of length ≥ 3), independently
of the loops in the source. -/
def speakerRuns : List String → List (String × Nat)
  | [] => []
  | s :: rest => speakerRunsGo s 1 rest
where
  speakerRunsGo (cur : String) (n : Nat) : List String → List (String × Nat)
    | [] => [(cur, n)]
    | s :: rest =>
      if s = cur then speakerRunsGo cur (n + 1) rest
      else (cur, n) :: speakerRunsGo s 1 rest

/-- Modelled from the spec (claim C3's reading of §4.2): turn-taking balance
computed from counts of maximal same-speaker runs ("turns" in the spec's
Turn sense, taken in transcript/index order), not from per-speaker row
counts. -/
def specTurnBalance (utts : List Utterance) : ℚ :=
  let valid := utts.filter fun u => u.valid_time
  let runs := speakerRuns ((valid.insertionSort indexLe).map fun u => u.speaker)
  let agent := (runs.filter fun p => p.1 = "AGENT").length
  let customer := (runs.filter fun p => p.1 = "CUSTOMER").length
  if 0 < max agent customer then (min agent customer : ℚ) / (max agent customer : ℚ)
  else 0

/-- Modelled from the spec (claim C4's reading of §4.2): monologue segments
counted over maximal same-speaker runs taken in index (transcript) order,
counting a run only when its length is ≥ 3. -/
def specMonologueSegments (utts : List Utterance) : Nat :=
  let valid := utts.filter fun u => u.valid_time
  let runs := speakerRuns ((valid.insertionSort indexLe).map fun u => u.speaker)
  (runs.filter fun p => 3 ≤ p.2).length

/-- Strict version of the event-key order: `(t, -delta)` lexicographically
smaller. -/
def eventLt (a b : Event) : Prop :=
  a.t < b.t ∨ (a.t = b.t ∧ b.delta < a.delta)

instance : DecidableRel eventLt :=
  fun a b => inferInstanceAs (Decidable (_ ∨ _))

/-- Net delta (starts minus ends) of a speaker's events in a list: the value
the sweep's `active_speakers[s]` holds after processing the list. -/
def deltaSum (s : String) (es : List Event) : Int :=
  ((es.filter fun e => e.speaker = s).map fun e => e.delta).sum

/-- Sum of `-delta * t` over a speaker's events: a start at time `t`
contributes `-t`, an end contributes `+t`, so over matched events this
telescopes to the speaker's total interval length. -/
def weightedSum (s : String) (es : List Event) : ℚ :=
  ((es.filter fun e => e.speaker = s).map fun e => -(e.delta : ℚ) * e.t).sum

/-- Sum of a speaker-indexed dict's values over its key domain
(`sum(d.values())`). -/
def sumOver (l : List String) (f : String → ℚ) : ℚ :=
  (l.map f).sum

/-- Modelled from the spec (§4.2 Gini computation): `Σ (rank * value)` with
1-based ranks, written with an explicit running rank. -/
def rankSumFrom (r : ℚ) : List ℚ → ℚ
  | [] => 0
  | x :: xs => r * x + rankSumFrom (r + 1) xs

/-- Convenience constructor for concrete valid utterances in witnesses and
counterexamples. -/
def mkValid (i : Nat) (s : String) (a b : ℚ) : Utterance :=
  { utterance_index := i, speaker := s, start_sec := a, end_sec := b
    duration_sec := b - a, valid_time := true }

/-- Concrete input refuting claim C3: three valid utterances with speakers
AGENT, AGENT, CUSTOMER in both index and start order. -/
def exC3 : List Utterance :=
  [mkValid 0 "AGENT" 0 1, mkValid 1 "AGENT" 2 3, mkValid 2 "CUSTOMER" 4 5]

/-- Concrete input refuting claim C4: index order gives speakers
AGENT, AGENT, AGENT, CUSTOMER (one run of 3) while start-time order gives
AGENT, CUSTOMER, AGENT, AGENT (no run of 3). -/
def exC4 : List Utterance :=
  [mkValid 0 "AGENT" 10 11, mkValid 1 "AGENT" 20 21,
   mkValid 2 "AGENT" 30 31, mkValid 3 "CUSTOMER" 15 16]

/-- Concrete input for the C10 witness: the UNKNOWN speaker starts at 3,
before the AGENT utterance ends at 5 — an interruption by UNKNOWN. -/
def exC10 : List Utterance :=
  [mkValid 0 "AGENT" 0 5, mkValid 1 "UNKNOWN" 3 8]

/-- Concrete input for the C1/C9 witnesses: the partial-overlap example of
spec §8 (intervals `[0,5)` A, `[3,7)` B, `[8,12)` A). -/
def exOverlap : List Utterance :=
  [mkValid 0 "A" 0 5, mkValid 1 "B" 3 7, mkValid 2 "A" 8 12]

/-- A single utterance with invalid timing, for the C6 witness. -/
def exInvalid : Utterance :=
  { utterance_index := 0, speaker := "AGENT", start_sec := 5, end_sec := 3
    duration_sec := 0, valid_time := false }

/- ------------------------------------------------------------------ -/
/- Theorems.                                                           -/
/- ------------------------------------------------------------------ -/

/-- Helper: a list on which the valid-time flag is everywhere false filters
to the empty list. -/
theorem filter_valid_eq_nil {utts : List Utterance}
    (h : ∀ u ∈ utts, u.valid_time = false) :
    utts.filter (fun u => u.valid_time) = [] := by
  rw [List.filter_eq_nil_iff]
  intro a ha
  simp [h a ha]

/-- C6: with zero valid utterances, `compute_timeline_stats` returns
`T = L = O = S = 0`, an empty speaker domain and everywhere-zero
`apportioned` / `raw_speaking` mappings.  The embedded function is total,
so in particular no exception is raised. -/
theorem timeline_empty_input (utts : List Utterance)
    (h : ∀ u ∈ utts, u.valid_time = false) :
    (compute_timeline_stats utts).T = 0 ∧
    (compute_timeline_stats utts).L = 0 ∧
    (compute_timeline_stats utts).O = 0 ∧
    (compute_timeline_stats utts).S = 0 ∧
    (compute_timeline_stats utts).speakers = [] ∧
    (∀ s, (compute_timeline_stats utts).apportioned s = 0) ∧
    (∀ s, (compute_timeline_stats utts).raw_speaking s = 0) := by
  simp [compute_timeline_stats, filter_valid_eq_nil h]

/-- Witness for C6: a one-row input whose row is invalid. -/
theorem timeline_empty_input_witness :
    (compute_timeline_stats [exInvalid]).T = 0 ∧
    (compute_timeline_stats [exInvalid]).L = 0 ∧
    (compute_timeline_stats [exInvalid]).O = 0 ∧
    (compute_timeline_stats [exInvalid]).S = 0 ∧
    (compute_timeline_stats [exInvalid]).speakers = [] ∧
    (∀ s, (compute_timeline_stats [exInvalid]).apportioned s = 0) ∧
    (∀ s, (compute_timeline_stats [exInvalid]).raw_speaking s = 0) :=
  timeline_empty_input [exInvalid] (by
    intro u hu
    rw [List.mem_singleton] at hu
    subst hu
    rfl)

/-- Helper: summing an "add `c` to every speaker passing the guard" update
over a speaker list adds `c` once per passing speaker. -/
theorem sum_map_guard_add (l : List String) (f : String → ℚ) (c : ℚ)
    (active : String → Int) :
    (l.map fun s => if 0 < active s then f s + c else f s).sum
      = (l.map f).sum + ((l.countP fun s => 0 < active s : Nat) : ℚ) * c := by
  induction l with
  | nil => simp
  | cons x xs ih =>
    simp only [List.map_cons, List.sum_cons, List.countP_cons, ih]
    by_cases hx : 0 < active x
    · simp only [if_pos hx, decide_eq_true_eq, hx]
      push_cast
      ring
    · simp only [if_neg hx, decide_eq_true_eq, hx]
      push_cast
      ring

/-- Helper: one sweep step preserves the core invariants
`0 ≤ L`, `0 ≤ O`, `O ≤ L`, apportioned values nonnegative, and
`Σ apportioned = L` over the speaker domain. -/
theorem sweepStep_inv (speakers : List String) (st : SweepState) (e : Event)
    (hL : 0 ≤ st.L) (hO : 0 ≤ st.O) (hOL : st.O ≤ st.L)
    (hA : ∀ s, 0 ≤ st.apportioned s)
    (hsum : sumOver speakers st.apportioned = st.L) :
    0 ≤ (sweepStep speakers st e).L ∧ 0 ≤ (sweepStep speakers st e).O ∧
    (sweepStep speakers st e).O ≤ (sweepStep speakers st e).L ∧
    (∀ s, 0 ≤ (sweepStep speakers st e).apportioned s) ∧
    sumOver speakers (sweepStep speakers st e).apportioned
      = (sweepStep speakers st e).L := by
  unfold sweepStep
  cases hlt : st.last_t with
  | none => exact ⟨hL, hO, hOL, hA, hsum⟩
  | some lt =>
    simp only
    by_cases ht : lt < e.t
    · rw [if_pos ht]
      have hd : 0 < e.t - lt := by linarith
      by_cases h1 : 1 ≤ active_count speakers st.active
      · rw [if_pos h1]
        have hacpos : (0 : ℚ) < (active_count speakers st.active : ℚ) := by
          exact_mod_cast h1
        have hshare : 0 ≤ (e.t - lt) * (1 / (active_count speakers st.active : ℚ)) := by
          positivity
        have hA' : ∀ s, 0 ≤
            (if 0 < st.active s then st.apportioned s + (e.t - lt) * (1 / (active_count speakers st.active : ℚ))
             else st.apportioned s) := by
          intro s
          by_cases hs : 0 < st.active s
          · rw [if_pos hs]
            have := hA s
            linarith
          · rw [if_neg hs]
            exact hA s
        have hsum' :
            sumOver speakers (fun s =>
              if 0 < st.active s then st.apportioned s + (e.t - lt) * (1 / (active_count speakers st.active : ℚ))
              else st.apportioned s) = st.L + (e.t - lt) := by
          unfold sumOver
          rw [sum_map_guard_add]
          unfold sumOver at hsum
          rw [hsum]
          have hne : ((speakers.countP fun s => 0 < st.active s : Nat) : ℚ) ≠ 0 := by
            unfold active_count at hacpos
            exact ne_of_gt hacpos
          unfold active_count
          field_simp
        by_cases h2 : 2 ≤ active_count speakers st.active
        · rw [if_pos h2]
          refine ⟨by linarith, by linarith, by linarith, hA', hsum'⟩
        · rw [if_neg h2]
          refine ⟨by linarith, hO, by linarith, hA', hsum'⟩
      · rw [if_neg h1]
        have h2 : ¬ 2 ≤ active_count speakers st.active := by omega
        rw [if_neg h2]
        exact ⟨hL, hO, hOL, hA, hsum⟩
    · rw [if_neg ht]
      exact ⟨hL, hO, hOL, hA, hsum⟩

/-- Helper: the sweep fold preserves the core invariants from any starting
state. -/
theorem sweepFold_inv (speakers : List String) (es : List Event) :
    ∀ st : SweepState, 0 ≤ st.L → 0 ≤ st.O → st.O ≤ st.L →
    (∀ s, 0 ≤ st.apportioned s) →
    sumOver speakers st.apportioned = st.L →
    0 ≤ (es.foldl (sweepStep speakers) st).L ∧
    0 ≤ (es.foldl (sweepStep speakers) st).O ∧
    (es.foldl (sweepStep speakers) st).O ≤ (es.foldl (sweepStep speakers) st).L ∧
    (∀ s, 0 ≤ (es.foldl (sweepStep speakers) st).apportioned s) ∧
    sumOver speakers (es.foldl (sweepStep speakers) st).apportioned
      = (es.foldl (sweepStep speakers) st).L := by
  induction es with
  | nil => intro st hL hO hOL hA hsum; exact ⟨hL, hO, hOL, hA, hsum⟩
  | cons e rest ih =>
    intro st hL hO hOL hA hsum
    obtain ⟨hL', hO', hOL', hA', hsum'⟩ := sweepStep_inv speakers st e hL hO hOL hA hsum
    exact ih (sweepStep speakers st e) hL' hO' hOL' hA' hsum'

/-- Helper: the core invariants of the timeline output that need no
well-formedness of the input: nonnegative `L`, `O`, `O ≤ L`, nonnegative
apportioned values, and `Σ apportioned = L`. -/
theorem timeline_core (utts : List Utterance) :
    0 ≤ (compute_timeline_stats utts).L ∧ 0 ≤ (compute_timeline_stats utts).O ∧
    (compute_timeline_stats utts).O ≤ (compute_timeline_stats utts).L ∧
    (∀ s, 0 ≤ (compute_timeline_stats utts).apportioned s) ∧
    sumOver (compute_timeline_stats utts).speakers (compute_timeline_stats utts).apportioned
      = (compute_timeline_stats utts).L := by
  unfold compute_timeline_stats
  by_cases hv : (utts.filter fun u => u.valid_time).isEmpty
  · rw [if_pos hv]
    refine ⟨le_refl 0, le_refl 0, le_refl 0, fun s => le_refl 0, ?_⟩
    simp [sumOver]
  · rw [if_neg hv]
    simp only
    exact sweepFold_inv _ _ initSweep (le_refl 0) (le_refl 0) (le_refl 0)
      (fun s => le_refl 0) (by simp [sumOver, initSweep])

/-- Helper: the silence field is always `max 0 (T - L)`. -/
theorem timeline_S_eq (utts : List Utterance) :
    (compute_timeline_stats utts).S =
      max 0 ((compute_timeline_stats utts).T - (compute_timeline_stats utts).L) := by
  unfold compute_timeline_stats
  by_cases hv : (utts.filter fun u => u.valid_time).isEmpty
  · rw [if_pos hv]
    simp
  · rw [if_neg hv]

/-- Counterexample to C8: on the empty call, `T = 0` and the three
T-derived ratios are 0, but `speech_to_silence_ratio` is `float('inf')`
(modelled `none`), not 0 — so not every ratio is "defined as 0 when
`T = 0`". -/
theorem call_ratio_T_zero_counterexample :
    (compute_call_metrics [] (compute_timeline_stats [])).total_duration = 0 ∧
    (compute_call_metrics [] (compute_timeline_stats [])).silence_ratio = 0 ∧
    (compute_call_metrics [] (compute_timeline_stats [])).speech_ratio = 0 ∧
    (compute_call_metrics [] (compute_timeline_stats [])).overlap_ratio = 0 ∧
    (compute_call_metrics [] (compute_timeline_stats [])).speech_to_silence_ratio ≠ some 0 := by
  refine ⟨rfl, rfl, rfl, rfl, ?_⟩
  simp [compute_call_metrics, compute_timeline_stats]

/-- C8 amended: when the engine-produced `T` is 0, the three ratios divided
by `T` (`silence_ratio`, `speech_ratio`, `overlap_ratio`) are 0, while
`speech_to_silence_ratio` is positive infinity (modelled `none`), because
`S = max 0 (T - L) = 0` then. -/
theorem call_ratios_when_T_zero (utts : List Utterance)
    (hT : (compute_timeline_stats utts).T = 0) :
    (compute_call_metrics utts (compute_timeline_stats utts)).silence_ratio = 0 ∧
    (compute_call_metrics utts (compute_timeline_stats utts)).speech_ratio = 0 ∧
    (compute_call_metrics utts (compute_timeline_stats utts)).overlap_ratio = 0 ∧
    (compute_call_metrics utts (compute_timeline_stats utts)).speech_to_silence_ratio
      = none := by
  have hL : 0 ≤ (compute_timeline_stats utts).L := (timeline_core utts).1
  have hS : (compute_timeline_stats utts).S = 0 := by
    rw [timeline_S_eq, hT]
    simp only [zero_sub, max_eq_left_iff]
    linarith
  unfold compute_call_metrics
  simp only [hT, hS, lt_irrefl, if_neg (lt_irrefl (0 : ℚ))]
  exact ⟨rfl, rfl, rfl, rfl⟩

/-- Witness for the amended C8 at the empty call. -/
theorem call_ratios_when_T_zero_witness :
    (compute_call_metrics [] (compute_timeline_stats [])).silence_ratio = 0 ∧
    (compute_call_metrics [] (compute_timeline_stats [])).speech_ratio = 0 ∧
    (compute_call_metrics [] (compute_timeline_stats [])).overlap_ratio = 0 ∧
    (compute_call_metrics [] (compute_timeline_stats [])).speech_to_silence_ratio
      = none :=
  call_ratios_when_T_zero [] rfl

/-- Helper: the enumerate-based cumsum loop computes the spec's
`Σ (rank * value)` with 1-based ranks. -/
theorem giniCumsum_eq_rankSum (l : List ℚ) : giniCumsum l = rankSumFrom 1 l := by
  have h : ∀ (l : List ℚ) (k : Nat) (c : ℚ),
      (l.enumFrom k).foldl (fun c p => c + ((p.1 : ℚ) + 1) * p.2) c
        = c + rankSumFrom ((k : ℚ) + 1) l := by
    intro l
    induction l with
    | nil => intro k c; simp [rankSumFrom]
    | cons x xs ih =>
      intro k c
      simp only [List.enumFrom, List.foldl_cons, rankSumFrom, ih]
      push_cast
      ring
  have h0 := h l 0 0
  simpa [giniCumsum, List.enum] using h0

/-- C5: the Gini computation drops non-positive values, returns 0 whenever
fewer than 2 positive values remain (in particular for one speaker with all
the time and another with 0), otherwise equals
`(2 * Σ(rank * value)) / (n * Σ value) - (n + 1) / n` over the remaining
values sorted ascending with 1-based ranks, and yields 0 for two equal
positive values. -/
theorem gini_spec (values : List ℚ) (v : ℚ) (hv : 0 < v) :
    ((values.filter fun x => 0 < x).length < 2 → compute_gini values = 0) ∧
    (2 ≤ (values.filter fun x => 0 < x).length →
      compute_gini values =
        2 * rankSumFrom 1 ((values.filter fun x => 0 < x).insertionSort (· ≤ ·)) /
            (((values.filter fun x => 0 < x).length : ℚ) *
              ((values.filter fun x => 0 < x).insertionSort (· ≤ ·)).sum) -
          (((values.filter fun x => 0 < x).length : ℚ) + 1) /
            ((values.filter fun x => 0 < x).length : ℚ)) ∧
    compute_gini [v, v] = 0 ∧
    compute_gini [v, 0] = 0 := by
  have hlen : ∀ w : List ℚ,
      ((w.filter fun x => 0 < x).insertionSort (· ≤ ·)).length
        = (w.filter fun x => 0 < x).length :=
    fun w => (List.perm_insertionSort _ _).length_eq
  refine ⟨?_, ?_, ?_, ?_⟩
  · intro h
    unfold compute_gini
    by_cases h2 : values.length < 2
    · rw [if_pos h2]
    · rw [if_neg h2]
      simp only
      rw [if_pos h]
  · intro h
    have h2 : ¬ values.length < 2 := by
      have := List.length_filter_le (fun x => decide (0 < x)) values
      omega
    unfold compute_gini
    rw [if_neg h2]
    simp only
    rw [if_neg (by omega)]
    rw [giniCumsum_eq_rankSum, hlen values]
  · unfold compute_gini
    have hfil : ([v, v].filter fun x => 0 < x) = [v, v] := by
      simp [List.filter, hv]
    rw [if_neg (by simp)]
    simp only [hfil]
    rw [if_neg (by simp)]
    have hsort : ([v, v].insertionSort (· ≤ ·)) = [v, v] := by
      simp [List.insertionSort, List.orderedInsert]
    rw [hsort]
    have hcs : giniCumsum [v, v] = 3 * v := by
      simp [giniCumsum, List.enum, List.enumFrom]
      ring
    rw [hcs]
    simp only [List.length_cons, List.length_nil, List.sum_cons, List.sum_nil]
    have hvne : v ≠ 0 := ne_of_gt hv
    field_simp
    ring
  · unfold compute_gini
    have hfil : ([v, 0].filter fun x => 0 < x) = [v] := by
      simp [List.filter, hv]
    rw [if_neg (by simp)]
    simp only [hfil]
    rw [if_pos (by simp)]

/-- Witness for C5 at concrete values. -/
theorem gini_spec_witness :
    compute_gini [(1 : ℚ)] = 0 ∧
    compute_gini [(1 : ℚ), 2] =
      2 * rankSumFrom 1 (([(1 : ℚ), 2].filter fun x => 0 < x).insertionSort (· ≤ ·)) /
          ((([(1 : ℚ), 2].filter fun x => 0 < x).length : ℚ) *
            (([(1 : ℚ), 2].filter fun x => 0 < x).insertionSort (· ≤ ·)).sum) -
        ((([(1 : ℚ), 2].filter fun x => 0 < x).length : ℚ) + 1) /
          (([(1 : ℚ), 2].filter fun x => 0 < x).length : ℚ) ∧
    compute_gini [(2 : ℚ), 2] = 0 ∧ compute_gini [(2 : ℚ), 0] = 0 := by
  refine ⟨?_, ?_, ?_, ?_⟩
  · exact (gini_spec [(1 : ℚ)] 2 (by norm_num)).1 (by decide)
  · exact (gini_spec [(1 : ℚ), 2] 2 (by norm_num)).2.1 (by decide)
  · exact (gini_spec [(1 : ℚ)] 2 (by norm_num)).2.2.1
  · exact (gini_spec [(1 : ℚ)] 2 (by norm_num)).2.2.2

/-- Counterexample to C3: on three valid utterances with speakers
AGENT, AGENT, CUSTOMER (in both index and start order), the code's
`turn_taking_balance` is 1/2 (per-speaker utterance counts 2 and 1), while
balance over counts of maximal same-speaker runs (the spec's Turn notion,
1 run each) would be 1. -/
theorem turn_balance_counterexample :
    (compute_interaction_metrics exC3).turn_taking_balance = 1 / 2 ∧
    specTurnBalance exC3 = 1 ∧
    (compute_interaction_metrics exC3).turn_taking_balance ≠ specTurnBalance exC3 := by
  have h1 : (compute_interaction_metrics exC3).turn_taking_balance = 1 / 2 := rfl
  have h2 : specTurnBalance exC3 = 1 := by
    simp only [specTurnBalance, exC3, mkValid]
    norm_num [List.insertionSort, List.orderedInsert, indexLe, speakerRuns,
      speakerRuns.speakerRunsGo]
    simp
  refine ⟨h1, h2, ?_⟩
  rw [h1, h2]
  norm_num

/-- C3 amended: `agent_turns` and `customer_turns` are the counts of valid
utterances (rows) per speaker, not counts of maximal same-speaker runs, and
`turn_taking_balance` is `min / max` of those row counts (0 when both are
0). -/
theorem turn_balance_counts_utterances (utts : List Utterance)
    (h2 : 2 ≤ (utts.filter fun u => u.valid_time).length) :
    (compute_interaction_metrics utts).agent_turns
      = (((utts.filter fun u => u.valid_time)).filter fun u => u.speaker = "AGENT").length ∧
    (compute_interaction_metrics utts).customer_turns
      = (((utts.filter fun u => u.valid_time)).filter fun u => u.speaker = "CUSTOMER").length ∧
    (compute_interaction_metrics utts).turn_taking_balance =
      (if 0 < max ((((utts.filter fun u => u.valid_time)).filter fun u => u.speaker = "AGENT").length)
                  ((((utts.filter fun u => u.valid_time)).filter fun u => u.speaker = "CUSTOMER").length)
       then ((min ((((utts.filter fun u => u.valid_time)).filter fun u => u.speaker = "AGENT").length)
                  ((((utts.filter fun u => u.valid_time)).filter fun u => u.speaker = "CUSTOMER").length) : Nat) : ℚ) /
            ((max ((((utts.filter fun u => u.valid_time)).filter fun u => u.speaker = "AGENT").length)
                  ((((utts.filter fun u => u.valid_time)).filter fun u => u.speaker = "CUSTOMER").length) : Nat) : ℚ)
       else 0) := by
  have hA : (((utts.filter fun u => u.valid_time).insertionSort startLe).filter
        fun u => u.speaker = "AGENT").length
      = ((utts.filter fun u => u.valid_time).filter fun u => u.speaker = "AGENT").length :=
    ((List.perm_insertionSort startLe _).filter _).length_eq
  have hC : (((utts.filter fun u => u.valid_time).insertionSort startLe).filter
        fun u => u.speaker = "CUSTOMER").length
      = ((utts.filter fun u => u.valid_time).filter fun u => u.speaker = "CUSTOMER").length :=
    ((List.perm_insertionSort startLe _).filter _).length_eq
  unfold compute_interaction_metrics
  rw [if_neg (by omega)]
  simp only
  rw [hA, hC]
  refine ⟨rfl, rfl, ?_⟩
  push_cast
  rfl

/-- Witness for the amended C3 at the AGENT, AGENT, CUSTOMER input. -/
theorem turn_balance_counts_utterances_witness :
    (compute_interaction_metrics exC3).agent_turns
      = (((exC3.filter fun u => u.valid_time)).filter fun u => u.speaker = "AGENT").length ∧
    (compute_interaction_metrics exC3).customer_turns
      = (((exC3.filter fun u => u.valid_time)).filter fun u => u.speaker = "CUSTOMER").length ∧
    (compute_interaction_metrics exC3).turn_taking_balance =
      (if 0 < max ((((exC3.filter fun u => u.valid_time)).filter fun u => u.speaker = "AGENT").length)
                  ((((exC3.filter fun u => u.valid_time)).filter fun u => u.speaker = "CUSTOMER").length)
       then ((min ((((exC3.filter fun u => u.valid_time)).filter fun u => u.speaker = "AGENT").length)
                  ((((exC3.filter fun u => u.valid_time)).filter fun u => u.speaker = "CUSTOMER").length) : Nat) : ℚ) /
            ((max ((((exC3.filter fun u => u.valid_time)).filter fun u => u.speaker = "AGENT").length)
                  ((((exC3.filter fun u => u.valid_time)).filter fun u => u.speaker = "CUSTOMER").length) : Nat) : ℚ)
       else 0) :=
  turn_balance_counts_utterances exC3 (by decide)

/-- Helper: the monologue loop with a current speaker and run length `n`
counts exactly the maximal runs of length ≥ 3 of the remaining speaker
sequence, continued from the run in progress. -/
theorem monoLoop_go_eq (l : List Utterance) : ∀ (cur : String) (n acc : Nat),
    monoLoop (some cur) n acc l
      = acc + ((speakerRuns.speakerRunsGo cur n (l.map fun u => u.speaker)).filter
          fun p => 3 ≤ p.2).length := by
  induction l with
  | nil =>
    intro cur n acc
    by_cases h3 : 3 ≤ n <;>
      simp [monoLoop, speakerRuns.speakerRunsGo, List.filter, h3]
  | cons u rest ih =>
    intro cur n acc
    by_cases hs : u.speaker = cur
    · simp [monoLoop, speakerRuns.speakerRunsGo, hs, ih cur (n + 1) acc]
    · have hs' : ¬ (some u.speaker = some cur) := by simpa using hs
      simp only [monoLoop, List.map_cons, if_neg hs']
      simp only [speakerRuns.speakerRunsGo, if_neg hs]
      rw [ih u.speaker 1 _, List.filter_cons]
      by_cases h3 : 3 ≤ n
      · simp [h3]
        omega
      · simp [h3]

/-- Helper: the monologue loop from its initial state counts the maximal
same-speaker runs of length ≥ 3 of the input sequence. -/
theorem monoLoop_eq_runs (l : List Utterance) :
    monoLoop none 0 0 l
      = ((speakerRuns (l.map fun u => u.speaker)).filter fun p => 3 ≤ p.2).length := by
  cases l with
  | nil => simp [monoLoop, speakerRuns, List.filter]
  | cons u rest =>
    have hne : ¬ (some u.speaker = (none : Option String)) := by simp
    simp only [monoLoop, if_neg hne, List.map_cons, speakerRuns]
    have h0 : ¬ (3 ≤ 0) := by omega
    rw [if_neg h0]
    simpa using monoLoop_go_eq rest u.speaker 1 0

/-- Counterexample to C4: on `exC4` the index order gives speakers
AGENT, AGENT, AGENT, CUSTOMER (one run of length 3), but the code counts
runs over start-time order (AGENT, CUSTOMER, AGENT, AGENT), finding 0
monologue segments where the index-order grouping has 1. -/
theorem monologue_counterexample :
    (compute_interaction_metrics exC4).monologue_segments = 0 ∧
    specMonologueSegments exC4 = 1 ∧
    (compute_interaction_metrics exC4).monologue_segments ≠ specMonologueSegments exC4 := by
  have h1 : (compute_interaction_metrics exC4).monologue_segments = 0 := rfl
  have h2 : specMonologueSegments exC4 = 1 := by
    simp only [specMonologueSegments, exC4, mkValid]
    norm_num [List.insertionSort, List.orderedInsert, indexLe, speakerRuns,
      speakerRuns.speakerRunsGo]
    simp
  refine ⟨h1, h2, ?_⟩
  rw [h1, h2]
  norm_num

/-- C4 amended: `monologue_segments` counts the maximal same-speaker runs
of length ≥ 3 of the valid utterances taken in start-time order (the order
the function sorts into at its entry), not in index order. -/
theorem monologue_segments_start_order (utts : List Utterance)
    (h2 : 2 ≤ (utts.filter fun u => u.valid_time).length) :
    (compute_interaction_metrics utts).monologue_segments
      = ((speakerRuns (((utts.filter fun u => u.valid_time).insertionSort startLe).map
            fun u => u.speaker)).filter fun p => 3 ≤ p.2).length := by
  unfold compute_interaction_metrics
  rw [if_neg (by omega)]
  simp only
  exact monoLoop_eq_runs _

/-- Witness for the amended C4 at the `exC4` input. -/
theorem monologue_segments_start_order_witness :
    (compute_interaction_metrics exC4).monologue_segments
      = ((speakerRuns (((exC4.filter fun u => u.valid_time).insertionSort startLe).map
            fun u => u.speaker)).filter fun p => 3 ≤ p.2).length :=
  monologue_segments_start_order exC4 (by decide)

/-- C7: `compute_turns` filters to valid rows, sorts by `utterance_index`
(the input below is scrambled, with an invalid row interleaved), closes a
turn on each speaker change and at the end, and sets each turn's `end_sec`
to the maximum end seen in the run: speakers `[A,A,B,A,A,A]` in index order
yield turns with utterance counts 2, 1, 3, for arbitrary times. -/
theorem compute_turns_spec (A B : String) (hAB : A ≠ B)
    (s0 s1 s2 s3 s4 s5 e0 e1 e2 e3 e4 e5 x y : ℚ) :
    compute_turns
      [{ utterance_index := 3, speaker := A, start_sec := s3, end_sec := e3,
         duration_sec := e3 - s3, valid_time := true },
       { utterance_index := 0, speaker := A, start_sec := s0, end_sec := e0,
         duration_sec := e0 - s0, valid_time := true },
       { utterance_index := 6, speaker := B, start_sec := x, end_sec := y,
         duration_sec := 0, valid_time := false },
       { utterance_index := 5, speaker := A, start_sec := s5, end_sec := e5,
         duration_sec := e5 - s5, valid_time := true },
       { utterance_index := 2, speaker := B, start_sec := s2, end_sec := e2,
         duration_sec := e2 - s2, valid_time := true },
       { utterance_index := 1, speaker := A, start_sec := s1, end_sec := e1,
         duration_sec := e1 - s1, valid_time := true },
       { utterance_index := 4, speaker := A, start_sec := s4, end_sec := e4,
         duration_sec := e4 - s4, valid_time := true }]
      = [{ speaker := A, start_sec := s0, end_sec := max e0 e1,
           duration_sec := max e0 e1 - s0, utterance_count := 2 },
         { speaker := B, start_sec := s2, end_sec := e2,
           duration_sec := e2 - s2, utterance_count := 1 },
         { speaker := A, start_sec := s3, end_sec := max (max e3 e4) e5,
           duration_sec := max (max e3 e4) e5 - s3, utterance_count := 3 }] := by
  have hBA : B ≠ A := Ne.symm hAB
  unfold compute_turns
  simp [List.insertionSort, List.orderedInsert, indexLe, turnsLoop, hAB, hBA]

/-- Witness for C7 at concrete speakers and times. -/
theorem compute_turns_spec_witness :
    compute_turns
      [{ utterance_index := 3, speaker := "A", start_sec := 6, end_sec := 7,
         duration_sec := 1, valid_time := true },
       { utterance_index := 0, speaker := "A", start_sec := 0, end_sec := 1,
         duration_sec := 1, valid_time := true },
       { utterance_index := 6, speaker := "B", start_sec := 50, end_sec := 51,
         duration_sec := 0, valid_time := false },
       { utterance_index := 5, speaker := "A", start_sec := 10, end_sec := 11,
         duration_sec := 1, valid_time := true },
       { utterance_index := 2, speaker := "B", start_sec := 4, end_sec := 5,
         duration_sec := 1, valid_time := true },
       { utterance_index := 1, speaker := "A", start_sec := 2, end_sec := 3,
         duration_sec := 1, valid_time := true },
       { utterance_index := 4, speaker := "A", start_sec := 8, end_sec := 9,
         duration_sec := 1, valid_time := true }]
      = [{ speaker := "A", start_sec := 0, end_sec := max 1 3,
           duration_sec := max 1 3 - 0, utterance_count := 2 },
         { speaker := "B", start_sec := 4, end_sec := 5,
           duration_sec := 5 - 4, utterance_count := 1 },
         { speaker := "A", start_sec := 6, end_sec := max (max 7 9) 11,
           duration_sec := max (max 7 9) 11 - 6, utterance_count := 3 }] :=
  compute_turns_spec "A" "B" (by decide) 0 2 4 6 8 10 1 3 5 7 9 11 50 51

/-- Helper: over pairs whose interrupting speaker carries one of the four
normalized labels, the interruption fold keeps
`total = agent + customer + other + unknown`. -/
theorem interFold_total (ps : List (Utterance × Utterance))
    (hlab : ∀ p ∈ ps, p.2.speaker = "AGENT" ∨ p.2.speaker = "CUSTOMER" ∨
      p.2.speaker = "OTHER" ∨ p.2.speaker = "UNKNOWN") :
    ∀ c : InterruptionCounts,
      c.total = c.agent + c.customer + c.other + c.unknown →
      (ps.foldl interStep c).total
        = (ps.foldl interStep c).agent + (ps.foldl interStep c).customer +
          (ps.foldl interStep c).other + (ps.foldl interStep c).unknown := by
  induction ps with
  | nil => intro c hc; exact hc
  | cons p rest ih =>
    intro c hc
    have hlab' : ∀ q ∈ rest, q.2.speaker = "AGENT" ∨ q.2.speaker = "CUSTOMER" ∨
        q.2.speaker = "OTHER" ∨ q.2.speaker = "UNKNOWN" :=
      fun q hq => hlab q (List.mem_cons_of_mem p hq)
    rw [List.foldl_cons]
    apply ih hlab'
    unfold interStep
    by_cases hint : p.2.start_sec < p.1.end_sec ∧ p.2.speaker ≠ p.1.speaker
    · rw [if_pos hint]
      rcases hlab p (List.mem_cons_self p rest) with h | h | h | h <;>
        simp [bumpInterruptions, h] <;> omega
    · rw [if_neg hint]
      exact hc

/-- Helper: the `unknown` counter of the interruption fold counts exactly
the interrupting pairs whose interrupting speaker is UNKNOWN. -/
theorem interFold_unknown (ps : List (Utterance × Utterance)) :
    ∀ c : InterruptionCounts,
      (ps.foldl interStep c).unknown
        = c.unknown + ps.countP (fun p =>
            p.2.start_sec < p.1.end_sec ∧ p.2.speaker ≠ p.1.speaker ∧
              p.2.speaker = "UNKNOWN") := by
  induction ps with
  | nil => intro c; simp
  | cons p rest ih =>
    intro c
    rw [List.foldl_cons, ih (interStep c p), List.countP_cons]
    unfold interStep
    by_cases hint : p.2.start_sec < p.1.end_sec ∧ p.2.speaker ≠ p.1.speaker
    · rw [if_pos hint]
      by_cases hu : p.2.speaker = "UNKNOWN"
      · have hd : (decide (p.2.start_sec < p.1.end_sec ∧ p.2.speaker ≠ p.1.speaker ∧
            p.2.speaker = "UNKNOWN")) = true := by
          rw [decide_eq_true_eq]
          exact ⟨hint.1, hint.2, hu⟩
        rw [hd]
        have hbu : (bumpInterruptions c p.2.speaker).unknown = c.unknown + 1 := by
          unfold bumpInterruptions
          rw [hu]
          simp
        rw [hbu]
        simp
        omega
      · have hd : (decide (p.2.start_sec < p.1.end_sec ∧ p.2.speaker ≠ p.1.speaker ∧
            p.2.speaker = "UNKNOWN")) = false := by
          simp [hu]
        rw [hd]
        have hbu : (bumpInterruptions c p.2.speaker).unknown = c.unknown := by
          unfold bumpInterruptions
          by_cases h1 : p.2.speaker = "total"
          · simp [h1]
          · by_cases h2 : p.2.speaker = "AGENT"
            · simp [h1, h2]
            · by_cases h3 : p.2.speaker = "CUSTOMER"
              · simp [h1, h2, h3]
              · by_cases h4 : p.2.speaker = "OTHER"
                · simp [h1, h2, h3, h4]
                · simp [h1, h2, h3, h4, hu]
        rw [hbu]
        simp
    · rw [if_neg hint]
      have hd : (decide (p.2.start_sec < p.1.end_sec ∧ p.2.speaker ≠ p.1.speaker ∧
          p.2.speaker = "UNKNOWN")) = false := by
        rcases not_and_or.mp hint with h | h
        · simp [h]
        · simp only [ne_eq, not_not] at h
          simp [h]
      rw [hd]
      simp

/-- C10: with speakers drawn from the normalized label set, the exposed
by-speaker interruption counts sum to at most `interruptions_total`, with
strict inequality exactly when some adjacent start-sorted valid pair is an
interruption committed by the UNKNOWN speaker (counted in the total, but
exposed in no by-speaker field). -/
theorem interruptions_total_decomposition (utts : List Utterance) (stats : TimelineStats)
    (hlab : ∀ u ∈ utts, u.valid_time = true →
      (u.speaker = "AGENT" ∨ u.speaker = "CUSTOMER" ∨
        u.speaker = "OTHER" ∨ u.speaker = "UNKNOWN")) :
    ((compute_call_metrics utts stats).interruptions_by_agent +
        (compute_call_metrics utts stats).interruptions_by_customer +
        (compute_call_metrics utts stats).interruptions_by_other ≤
      (compute_call_metrics utts stats).interruptions_total) ∧
    ((compute_call_metrics utts stats).interruptions_by_agent +
        (compute_call_metrics utts stats).interruptions_by_customer +
        (compute_call_metrics utts stats).interruptions_by_other <
      (compute_call_metrics utts stats).interruptions_total ↔
      ∃ p ∈ adjacentPairs ((utts.filter fun u => u.valid_time).insertionSort startLe),
        p.2.start_sec < p.1.end_sec ∧ p.2.speaker ≠ p.1.speaker ∧
          p.2.speaker = "UNKNOWN") := by
  have hpairs : ∀ p ∈ adjacentPairs ((utts.filter fun u => u.valid_time).insertionSort startLe),
      p.2.speaker = "AGENT" ∨ p.2.speaker = "CUSTOMER" ∨
        p.2.speaker = "OTHER" ∨ p.2.speaker = "UNKNOWN" := by
    intro p hp
    have h2 : p.2 ∈ ((utts.filter fun u => u.valid_time).insertionSort startLe).tail :=
      (List.of_mem_zip hp).2
    have h3 : p.2 ∈ (utts.filter fun u => u.valid_time).insertionSort startLe :=
      List.mem_of_mem_tail h2
    have h4 : p.2 ∈ utts.filter fun u => u.valid_time :=
      (List.perm_insertionSort startLe _).subset h3
    have h5 := List.mem_filter.mp h4
    exact hlab p.2 h5.1 (by simpa using h5.2)
  have htot := interFold_total _ hpairs
    { total := 0, agent := 0, customer := 0, other := 0, unknown := 0 } rfl
  have hunk := interFold_unknown
    (adjacentPairs ((utts.filter fun u => u.valid_time).insertionSort startLe))
    { total := 0, agent := 0, customer := 0, other := 0, unknown := 0 }
  have hrec : (compute_call_metrics utts stats).interruptions_total
        = (count_interruptions utts).total ∧
      (compute_call_metrics utts stats).interruptions_by_agent
        = (count_interruptions utts).agent ∧
      (compute_call_metrics utts stats).interruptions_by_customer
        = (count_interruptions utts).customer ∧
      (compute_call_metrics utts stats).interruptions_by_other
        = (count_interruptions utts).other := ⟨rfl, rfl, rfl, rfl⟩
  rw [hrec.1, hrec.2.1, hrec.2.2.1, hrec.2.2.2]
  unfold count_interruptions
  simp only
  rw [htot]
  constructor
  · omega
  · rw [hunk]
    simp only [Nat.zero_add]
    constructor
    · intro hlt
      have : 0 < (adjacentPairs ((utts.filter fun u => u.valid_time).insertionSort startLe)).countP
          (fun p => p.2.start_sec < p.1.end_sec ∧ p.2.speaker ≠ p.1.speaker ∧
            p.2.speaker = "UNKNOWN") := by omega
      have := List.countP_pos_iff.mp this
      obtain ⟨a, ha, hpa⟩ := this
      exact ⟨a, ha, by simpa using hpa⟩
    · intro ⟨a, ha, hpa⟩
      have : 0 < (adjacentPairs ((utts.filter fun u => u.valid_time).insertionSort startLe)).countP
          (fun p => p.2.start_sec < p.1.end_sec ∧ p.2.speaker ≠ p.1.speaker ∧
            p.2.speaker = "UNKNOWN") :=
        List.countP_pos_iff.mpr ⟨a, ha, by simpa using hpa⟩
      omega

/-- Witness for C10 at a two-utterance call where UNKNOWN interrupts
AGENT. -/
theorem interruptions_total_decomposition_witness :
    ((compute_call_metrics exC10 (compute_timeline_stats exC10)).interruptions_by_agent +
        (compute_call_metrics exC10 (compute_timeline_stats exC10)).interruptions_by_customer +
        (compute_call_metrics exC10 (compute_timeline_stats exC10)).interruptions_by_other ≤
      (compute_call_metrics exC10 (compute_timeline_stats exC10)).interruptions_total) ∧
    ((compute_call_metrics exC10 (compute_timeline_stats exC10)).interruptions_by_agent +
        (compute_call_metrics exC10 (compute_timeline_stats exC10)).interruptions_by_customer +
        (compute_call_metrics exC10 (compute_timeline_stats exC10)).interruptions_by_other <
      (compute_call_metrics exC10 (compute_timeline_stats exC10)).interruptions_total ↔
      ∃ p ∈ adjacentPairs ((exC10.filter fun u => u.valid_time).insertionSort startLe),
        p.2.start_sec < p.1.end_sec ∧ p.2.speaker ≠ p.1.speaker ∧
          p.2.speaker = "UNKNOWN") :=
  interruptions_total_decomposition exC10 (compute_timeline_stats exC10) (by
    intro u hu
    fin_cases hu <;> simp [exC10, mkValid])

/-- Helper: a fold of `max` dominates its initial value. -/
theorem le_foldl_max (l : List ℚ) : ∀ x : ℚ, x ≤ l.foldl max x := by
  induction l with
  | nil => intro x; simp
  | cons y ys ih =>
    intro x
    rw [List.foldl_cons]
    exact le_trans (le_max_left x y) (ih (max x y))

/-- Helper: a fold of `max` dominates every list element. -/
theorem mem_le_foldl_max (l : List ℚ) : ∀ (x y : ℚ), y ∈ l → y ≤ l.foldl max x := by
  induction l with
  | nil => intro x y hy; simp at hy
  | cons z zs ih =>
    intro x y hy
    rw [List.foldl_cons]
    rcases List.mem_cons.mp hy with h | h
    · subst h
      exact le_trans (le_max_right x y) (le_foldl_max zs (max x y))
    · exact ih (max x z) y h

/-- Helper: every element is at most the list maximum. -/
theorem le_listMax {l : List ℚ} {y : ℚ} (h : y ∈ l) : y ≤ listMax l := by
  cases l with
  | nil => simp at h
  | cons x xs =>
    unfold listMax
    rcases List.mem_cons.mp h with h | h
    · subst h; exact le_foldl_max xs y
    · exact mem_le_foldl_max xs x y h

/-- Helper: a fold of `min` is below its initial value. -/
theorem foldl_min_le (l : List ℚ) : ∀ x : ℚ, l.foldl min x ≤ x := by
  induction l with
  | nil => intro x; simp
  | cons y ys ih =>
    intro x
    rw [List.foldl_cons]
    exact le_trans (ih (min x y)) (min_le_left x y)

/-- Helper: a fold of `min` is below every list element. -/
theorem foldl_min_le_mem (l : List ℚ) : ∀ (x y : ℚ), y ∈ l → l.foldl min x ≤ y := by
  induction l with
  | nil => intro x y hy; simp at hy
  | cons z zs ih =>
    intro x y hy
    rw [List.foldl_cons]
    rcases List.mem_cons.mp hy with h | h
    · subst h
      exact le_trans (foldl_min_le zs (min x y)) (min_le_right x y)
    · exact ih (min x z) y h

/-- Helper: the list minimum is below every element. -/
theorem listMin_le {l : List ℚ} {y : ℚ} (h : y ∈ l) : listMin l ≤ y := by
  cases l with
  | nil => simp at h
  | cons x xs =>
    unfold listMin
    rcases List.mem_cons.mp h with h | h
    · subst h; exact foldl_min_le xs y
    · exact foldl_min_le_mem xs x y h

/-- Helper: every event of `buildEvents` is the start or the end event of
one of the rows. -/
theorem mem_buildEvents {valid : List Utterance} {e : Event}
    (h : e ∈ buildEvents valid) :
    ∃ u ∈ valid, e.speaker = u.speaker ∧
      ((e.t = u.start_sec ∧ e.delta = 1) ∨ (e.t = u.end_sec ∧ e.delta = -1)) := by
  unfold buildEvents at h
  obtain ⟨u, hu, he⟩ := List.mem_flatMap.mp h
  refine ⟨u, hu, ?_⟩
  rcases List.mem_cons.mp he with h1 | h1
  · subst h1; exact ⟨rfl, Or.inl ⟨rfl, rfl⟩⟩
  · rcases List.mem_cons.mp h1 with h2 | h2
    · subst h2; exact ⟨rfl, Or.inr ⟨rfl, rfl⟩⟩
    · simp at h2

/-- Helper: the sorted event list is a permutation of the built one. -/
theorem sortedEvents_perm (valid : List Utterance) :
    (sortedEvents valid).Perm (buildEvents valid) :=
  List.perm_insertionSort eventLe (buildEvents valid)

/-- Helper: the event sort really sorts by the `(time, -delta)` key. -/
theorem sortedEvents_sorted (valid : List Utterance) :
    List.Sorted eventLe (sortedEvents valid) :=
  List.sorted_insertionSort eventLe (buildEvents valid)

/-- Helper: the key order implies weakly increasing times. -/
theorem eventLe_time {a b : Event} (h : eventLe a b) : a.t ≤ b.t := by
  rcases h with h | ⟨h, _⟩
  · exact le_of_lt h
  · exact le_of_eq h

/-- Helper: a sweep step always records the event time as `last_t`. -/
theorem sweepStep_last_t (speakers : List String) (st : SweepState) (e : Event) :
    (sweepStep speakers st e).last_t = some e.t := rfl

/-- Helper: before the first event is seen (`last_t = None`), a sweep step
changes none of the accumulators. -/
theorem sweepStep_of_none (speakers : List String) (st : SweepState) (e : Event)
    (h : st.last_t = none) :
    (sweepStep speakers st e).L = st.L ∧ (sweepStep speakers st e).O = st.O ∧
    (sweepStep speakers st e).apportioned = st.apportioned := by
  unfold sweepStep
  rw [h]
  exact ⟨rfl, rfl, rfl⟩

/-- Helper: a sweep step at an event not earlier than `last_t` grows `L` by
at most the elapsed time. -/
theorem sweepStep_L_bound (speakers : List String) (st : SweepState) (e : Event)
    (τ : ℚ) (hτ : st.last_t = some τ) (hle : τ ≤ e.t) :
    (sweepStep speakers st e).L ≤ st.L + (e.t - τ) := by
  unfold sweepStep
  rw [hτ]
  simp only
  by_cases ht : τ < e.t
  · rw [if_pos ht]
    by_cases h1 : 1 ≤ active_count speakers st.active
    · rw [if_pos h1]
      by_cases h2 : 2 ≤ active_count speakers st.active
      · rw [if_pos h2]
      · rw [if_neg h2]
    · rw [if_neg h1]
      by_cases h2 : 2 ≤ active_count speakers st.active
      · omega
      · rw [if_neg h2]
        linarith
  · rw [if_neg ht]
    linarith

/-- Helper: folding the sweep over a time-sorted event list starting from a
recorded time `τ` grows `L` by at most the time span covered, and ends with
`last_t` equal to `τ` or to one of the processed event times. -/
theorem sweep_L_le (speakers : List String) :
    ∀ (es : List Event) (st : SweepState) (τ : ℚ),
      st.last_t = some τ →
      (∀ e ∈ es, τ ≤ e.t) →
      es.Pairwise (fun a b => a.t ≤ b.t) →
      ∃ τ' : ℚ, (es.foldl (sweepStep speakers) st).last_t = some τ' ∧
        τ ≤ τ' ∧ (τ' = τ ∨ τ' ∈ es.map (fun e => e.t)) ∧
        (es.foldl (sweepStep speakers) st).L ≤ st.L + (τ' - τ) := by
  intro es
  induction es with
  | nil =>
    intro st τ hτ _ _
    exact ⟨τ, hτ, le_refl τ, Or.inl rfl, by simp⟩
  | cons e rest ih =>
    intro st τ hτ hge hpw
    have hτe : τ ≤ e.t := hge e (List.mem_cons_self e rest)
    have hpw' := List.pairwise_cons.mp hpw
    obtain ⟨τ', hlast, hge', hmem, hL⟩ :=
      ih (sweepStep speakers st e) e.t (sweepStep_last_t speakers st e) hpw'.1 hpw'.2
    refine ⟨τ', by rw [List.foldl_cons]; exact hlast, hτe.trans hge', ?_, ?_⟩
    · rcases hmem with h | h
      · exact Or.inr (by rw [List.map_cons, h]; exact List.mem_cons_self _ _)
      · exact Or.inr (by rw [List.map_cons]; exact List.mem_cons_of_mem _ h)
    · rw [List.foldl_cons]
      have hstep := sweepStep_L_bound speakers st e τ hτ hτe
      linarith

/-- Helper: with well-formed valid rows (`start_sec ≤ end_sec`), the sweep's
total speech time is at most the timeline span `T`. -/
theorem timeline_L_le_T (utts : List Utterance)
    (hwf : ∀ u ∈ utts, u.valid_time = true → u.start_sec ≤ u.end_sec) :
    (compute_timeline_stats utts).L ≤ (compute_timeline_stats utts).T := by
  unfold compute_timeline_stats
  by_cases hv : (utts.filter fun u => u.valid_time).isEmpty
  · rw [if_pos hv]
  · rw [if_neg hv]
    simp only
    have hwf' : ∀ u ∈ utts.filter (fun u => u.valid_time), u.start_sec ≤ u.end_sec := by
      intro u hu
      exact hwf u (List.mem_of_mem_filter hu) (by simpa using (List.mem_filter.mp hu).2)
    have hub : ∀ e ∈ buildEvents (utts.filter fun u => u.valid_time),
        e.t ≤ listMax ((utts.filter fun u => u.valid_time).map fun u => u.end_sec) := by
      intro e he
      obtain ⟨u, hu, _, hcase⟩ := mem_buildEvents he
      have hue : u.end_sec ∈ (utts.filter fun u => u.valid_time).map (fun u => u.end_sec) :=
        List.mem_map_of_mem _ hu
      rcases hcase with ⟨h, _⟩ | ⟨h, _⟩
      · rw [h]; exact le_trans (hwf' u hu) (le_listMax hue)
      · rw [h]; exact le_listMax hue
    have hlb : ∀ e ∈ buildEvents (utts.filter fun u => u.valid_time),
        listMin ((utts.filter fun u => u.valid_time).map fun u => u.start_sec) ≤ e.t := by
      intro e he
      obtain ⟨u, hu, _, hcase⟩ := mem_buildEvents he
      have hus : u.start_sec ∈ (utts.filter fun u => u.valid_time).map (fun u => u.start_sec) :=
        List.mem_map_of_mem _ hu
      rcases hcase with ⟨h, _⟩ | ⟨h, _⟩
      · rw [h]; exact listMin_le hus
      · rw [h]; exact le_trans (listMin_le hus) (hwf' u hu)
    have hvne : utts.filter (fun u => u.valid_time) ≠ [] := by
      intro hnil
      rw [hnil] at hv
      simp at hv
    obtain ⟨u0, hu0⟩ := List.exists_mem_of_ne_nil _ hvne
    have hT0 : 0 ≤ listMax ((utts.filter fun u => u.valid_time).map fun u => u.end_sec)
        - listMin ((utts.filter fun u => u.valid_time).map fun u => u.start_sec) := by
      have h1 : listMin ((utts.filter fun u => u.valid_time).map fun u => u.start_sec)
          ≤ u0.start_sec := listMin_le (List.mem_map_of_mem _ hu0)
      have h2 : u0.end_sec ≤ listMax ((utts.filter fun u => u.valid_time).map fun u => u.end_sec) :=
        le_listMax (List.mem_map_of_mem _ hu0)
      have h3 := hwf' u0 hu0
      linarith
    cases hse : sortedEvents (utts.filter fun u => u.valid_time) with
    | nil =>
      simpa [initSweep] using hT0
    | cons e0 rest =>
      rw [List.foldl_cons]
      have hs := sortedEvents_sorted (utts.filter fun u => u.valid_time)
      rw [hse] at hs
      have hpc := List.pairwise_cons.mp hs
      have hL0 : (sweepStep ((utts.filter fun u => u.valid_time).map (fun u => u.speaker)).dedup
          initSweep e0).L = 0 :=
        (sweepStep_of_none _ initSweep e0 rfl).1
      obtain ⟨τ', hlast, hge', hmem, hL⟩ := sweep_L_le
        ((utts.filter fun u => u.valid_time).map (fun u => u.speaker)).dedup rest
        (sweepStep _ initSweep e0) e0.t (sweepStep_last_t _ initSweep e0)
        (fun x hx => eventLe_time (hpc.1 x hx))
        (hpc.2.imp fun h => eventLe_time h)
      have hτ'mem : ∃ e ∈ buildEvents (utts.filter fun u => u.valid_time), e.t = τ' := by
        rcases hmem with h | h
        · refine ⟨e0, ?_, h.symm⟩
          apply (sortedEvents_perm _).subset
          rw [hse]
          exact List.mem_cons_self _ _
        · obtain ⟨e, he, het⟩ := List.mem_map.mp h
          refine ⟨e, ?_, het⟩
          apply (sortedEvents_perm _).subset
          rw [hse]
          exact List.mem_cons_of_mem _ he
      have he0mem : e0 ∈ buildEvents (utts.filter fun u => u.valid_time) := by
        apply (sortedEvents_perm _).subset
        rw [hse]
        exact List.mem_cons_self _ _
      obtain ⟨e', he', he't⟩ := hτ'mem
      have hub' := hub e' he'
      rw [he't] at hub'
      have hlb' := hlb e0 he0mem
      rw [hL0] at hL
      linarith

/-- Helper: with well-formed valid rows the timeline span `T` is
nonnegative. -/
theorem timeline_T_nonneg (utts : List Utterance)
    (hwf : ∀ u ∈ utts, u.valid_time = true → u.start_sec ≤ u.end_sec) :
    0 ≤ (compute_timeline_stats utts).T := by
  unfold compute_timeline_stats
  by_cases hv : (utts.filter fun u => u.valid_time).isEmpty
  · rw [if_pos hv]
  · rw [if_neg hv]
    simp only
    have hvne : utts.filter (fun u => u.valid_time) ≠ [] := by
      intro hnil
      rw [hnil] at hv
      simp at hv
    obtain ⟨u0, hu0⟩ := List.exists_mem_of_ne_nil _ hvne
    have h1 : listMin ((utts.filter fun u => u.valid_time).map fun u => u.start_sec)
        ≤ u0.start_sec := listMin_le (List.mem_map_of_mem _ hu0)
    have h2 : u0.end_sec ≤ listMax ((utts.filter fun u => u.valid_time).map fun u => u.end_sec) :=
      le_listMax (List.mem_map_of_mem _ hu0)
    have h3 : u0.start_sec ≤ u0.end_sec :=
      hwf u0 (List.mem_of_mem_filter hu0) (by simpa using (List.mem_filter.mp hu0).2)
    linarith

/-- C1: for well-formed utterances (valid rows have `start_sec ≤ end_sec`,
the data-model invariant the normalizer guarantees), the outputs of
`compute_timeline_stats` satisfy the invariant law with the default
tolerance ε = 0.001: `|(L+S) - T| < ε`, `O ≤ L + ε`,
`|Σ apportioned - L| < ε`, and `T`, `L`, `O`, `S` and every apportioned
value are nonnegative.  In exact rational arithmetic the first and third
differences are exactly 0. -/
theorem timeline_invariant_law (utts : List Utterance)
    (hwf : ∀ u ∈ utts, u.valid_time = true → u.start_sec ≤ u.end_sec) :
    |((compute_timeline_stats utts).L + (compute_timeline_stats utts).S)
        - (compute_timeline_stats utts).T| < 1 / 1000 ∧
    (compute_timeline_stats utts).O ≤ (compute_timeline_stats utts).L + 1 / 1000 ∧
    |sumOver (compute_timeline_stats utts).speakers (compute_timeline_stats utts).apportioned
        - (compute_timeline_stats utts).L| < 1 / 1000 ∧
    0 ≤ (compute_timeline_stats utts).T ∧
    0 ≤ (compute_timeline_stats utts).L ∧
    0 ≤ (compute_timeline_stats utts).O ∧
    0 ≤ (compute_timeline_stats utts).S ∧
    (∀ s, 0 ≤ (compute_timeline_stats utts).apportioned s) := by
  obtain ⟨hL0, hO0, hOL, hApp, hSum⟩ := timeline_core utts
  have hLT := timeline_L_le_T utts hwf
  have hT0 := timeline_T_nonneg utts hwf
  have hS : (compute_timeline_stats utts).S
      = (compute_timeline_stats utts).T - (compute_timeline_stats utts).L := by
    rw [timeline_S_eq]
    exact max_eq_right (by linarith)
  refine ⟨?_, by linarith, ?_, hT0, hL0, hO0, by rw [hS]; linarith, hApp⟩
  · rw [hS]
    norm_num
  · rw [hSum]
    norm_num

/-- Witness for C1 at the partial-overlap example of spec §8. -/
theorem timeline_invariant_law_witness :
    |((compute_timeline_stats exOverlap).L + (compute_timeline_stats exOverlap).S)
        - (compute_timeline_stats exOverlap).T| < 1 / 1000 ∧
    (compute_timeline_stats exOverlap).O ≤ (compute_timeline_stats exOverlap).L + 1 / 1000 ∧
    |sumOver (compute_timeline_stats exOverlap).speakers (compute_timeline_stats exOverlap).apportioned
        - (compute_timeline_stats exOverlap).L| < 1 / 1000 ∧
    0 ≤ (compute_timeline_stats exOverlap).T ∧
    0 ≤ (compute_timeline_stats exOverlap).L ∧
    0 ≤ (compute_timeline_stats exOverlap).O ∧
    0 ≤ (compute_timeline_stats exOverlap).S ∧
    (∀ s, 0 ≤ (compute_timeline_stats exOverlap).apportioned s) :=
  timeline_invariant_law exOverlap (by
    intro u hu
    fin_cases hu <;> norm_num [exOverlap, mkValid])

/-- Helper: every built event carries delta +1 or -1. -/
theorem buildEvents_delta {valid : List Utterance} {e : Event}
    (h : e ∈ buildEvents valid) : e.delta = 1 ∨ e.delta = -1 := by
  obtain ⟨u, _, _, hc⟩ := mem_buildEvents h
  rcases hc with ⟨_, h1⟩ | ⟨_, h1⟩
  · exact Or.inl h1
  · exact Or.inr h1

/-- C2: the event list is sorted ascending by time with all start events
(+1) before end events (-1) at equal timestamps (first conjunct, for every
input), and consequently two touching intervals by different speakers (one
ending exactly when the other begins) contribute nothing to the overlap
time `O` (second conjunct, for arbitrary touching intervals
`[a,b]`, `[b,c]`). -/
theorem event_order_and_touching (utts : List Utterance)
    (a b c : ℚ) (s1 s2 : String) (h12 : s1 ≠ s2) (hab : a < b) (hbc : b < c) :
    ((sortedEvents (utts.filter fun u => u.valid_time)).Pairwise fun x y =>
        x.t < y.t ∨ (x.t = y.t ∧ (x.delta = 1 ∨ y.delta = -1))) ∧
    (compute_timeline_stats
      [{ utterance_index := 0, speaker := s1, start_sec := a, end_sec := b,
         duration_sec := b - a, valid_time := true },
       { utterance_index := 1, speaker := s2, start_sec := b, end_sec := c,
         duration_sec := c - b, valid_time := true }]).O = 0 := by
  constructor
  · have hdelta : ∀ e ∈ sortedEvents (utts.filter fun u => u.valid_time),
        e.delta = 1 ∨ e.delta = -1 := by
      intro e he
      exact buildEvents_delta ((sortedEvents_perm _).subset he)
    refine List.Pairwise.imp_of_mem ?_ (sortedEvents_sorted _)
    intro x y hx hy hle
    rcases hle with h | ⟨heq, hdle⟩
    · exact Or.inl h
    · refine Or.inr ⟨heq, ?_⟩
      rcases hdelta x hx with h1 | h1
      · exact Or.inl h1
      · rcases hdelta y hy with h2 | h2
        · rw [h1] at hdle
          omega
        · exact Or.inr h2
  · have hac : a < c := hab.trans hbc
    have h21 : s2 ≠ s1 := Ne.symm h12
    unfold compute_timeline_stats
    norm_num [List.filter]
    simp only [sortedEvents, buildEvents]
    simp only [List.flatMap_cons, List.flatMap_nil, List.append_nil, List.cons_append,
      List.nil_append, List.insertionSort, List.orderedInsert]
    norm_num [eventLe, hab, hbc, hac, not_lt.mpr (le_refl b), List.dedup_cons_of_not_mem,
      h12, h21]
    simp only [sweepStep, initSweep, active_count]
    norm_num [Function.update_apply, h12, h21, hab, hbc, lt_irrefl, List.countP_cons]

/-- Witness for C2: the touching pair `[0,5]`, `[5,9]` for distinct
speakers. -/
theorem event_order_and_touching_witness :
    ((sortedEvents (([] : List Utterance).filter fun u => u.valid_time)).Pairwise fun x y =>
        x.t < y.t ∨ (x.t = y.t ∧ (x.delta = 1 ∨ y.delta = -1))) ∧
    (compute_timeline_stats
      [{ utterance_index := 0, speaker := "A", start_sec := 0, end_sec := 5,
         duration_sec := 5 - 0, valid_time := true },
       { utterance_index := 1, speaker := "B", start_sec := 5, end_sec := 9,
         duration_sec := 9 - 5, valid_time := true }]).O = 0 :=
  event_order_and_touching [] 0 5 9 "A" "B" (by decide) (by norm_num) (by norm_num)

/-- Helper: the event-key order is reflexive. -/
theorem eventLe_refl (x : Event) : eventLe x x :=
  Or.inr ⟨rfl, le_refl x.delta⟩

/-- Helper: the weak and strict event-key orders are complementary. -/
theorem eventLe_iff_not_lt {x y : Event} : eventLe x y ↔ ¬ eventLt y x := by
  unfold eventLe eventLt
  constructor
  · intro h hlt
    rcases h with h | ⟨h1, h2⟩ <;> rcases hlt with h' | ⟨h1', h2'⟩
    · linarith
    · linarith
    · linarith
    · omega
  · intro h
    rcases lt_trichotomy x.t y.t with ht | ht | ht
    · exact Or.inl ht
    · refine Or.inr ⟨ht, ?_⟩
      by_contra hd
      exact h (Or.inr ⟨ht.symm, by omega⟩)
    · exact absurd (Or.inl ht) h

/-- Helper: strict-then-weak key comparisons compose strictly. -/
theorem eventLt_of_lt_of_le {x y z : Event} (h1 : eventLt x y) (h2 : eventLe y z) :
    eventLt x z := by
  unfold eventLt at h1 ⊢
  unfold eventLe at h2
  rcases h1 with h1 | ⟨ha, hb⟩ <;> rcases h2 with h2 | ⟨hc, hd⟩
  · exact Or.inl (h1.trans h2)
  · exact Or.inl (hc ▸ h1)
  · exact Or.inl (ha ▸ h2)
  · exact Or.inr ⟨ha.trans hc, by omega⟩

/-- Helper: for a well-formed row, the start event's key strictly precedes
the end event's key (`(s,-1) < (e,+1)` lexicographically even when
`s = e`). -/
theorem start_lt_end_event {u : Utterance} (h : u.start_sec ≤ u.end_sec) :
    eventLt { t := u.start_sec, delta := 1, speaker := u.speaker }
      { t := u.end_sec, delta := -1, speaker := u.speaker } := by
  rcases lt_or_eq_of_le h with h1 | h1
  · exact Or.inl h1
  · exact Or.inr ⟨h1, by norm_num⟩

/-- Helper: `countP` distributes over `flatMap` as a sum of per-element
counts. -/
theorem countP_flatMap {α β : Type} (l : List α) (f : α → List β) (p : β → Bool) :
    (l.flatMap f).countP p = (l.map fun a => (f a).countP p).sum := by
  induction l with
  | nil => simp
  | cons x xs ih => simp [List.flatMap_cons, List.countP_append, ih]

/-- Helper: on events whose deltas are all ±1, the net delta of a speaker
equals starts minus ends. -/
theorem deltaSum_eq_counts (s : String) (l : List Event)
    (hd : ∀ e ∈ l, e.delta = 1 ∨ e.delta = -1) :
    deltaSum s l
      = (l.countP (fun e => e.speaker = s ∧ e.delta = 1) : Int)
        - (l.countP (fun e => e.speaker = s ∧ e.delta = -1) : Int) := by
  induction l with
  | nil => simp [deltaSum]
  | cons e rest ih =>
    have hd' : ∀ x ∈ rest, x.delta = 1 ∨ x.delta = -1 :=
      fun x hx => hd x (List.mem_cons_of_mem e hx)
    have ihr := ih hd'
    unfold deltaSum at ihr ⊢
    rw [List.filter_cons, List.countP_cons, List.countP_cons]
    by_cases hs : e.speaker = s
    · rcases hd e (List.mem_cons_self e rest) with h1 | h1
      · have c1 : (decide (e.speaker = s ∧ e.delta = 1)) = true := by
          rw [decide_eq_true_eq]; exact ⟨hs, h1⟩
        have c2 : (decide (e.speaker = s ∧ e.delta = -1)) = false := by
          rw [decide_eq_false_iff_not]
          rintro ⟨_, h2⟩
          omega
        have c3 : (decide (e.speaker = s)) = true := by
          rw [decide_eq_true_eq]; exact hs
        rw [c1, c2, c3]
        simp only [if_true, List.map_cons, List.sum_cons]
        rw [ihr]
        push_cast
        omega
      · have c1 : (decide (e.speaker = s ∧ e.delta = 1)) = false := by
          rw [decide_eq_false_iff_not]
          rintro ⟨_, h2⟩
          omega
        have c2 : (decide (e.speaker = s ∧ e.delta = -1)) = true := by
          rw [decide_eq_true_eq]; exact ⟨hs, h1⟩
        have c3 : (decide (e.speaker = s)) = true := by
          rw [decide_eq_true_eq]; exact hs
        rw [c1, c2, c3]
        simp only [if_true, List.map_cons, List.sum_cons]
        rw [ihr]
        push_cast
        omega
    · have c1 : (decide (e.speaker = s ∧ e.delta = 1)) = false := by
        rw [decide_eq_false_iff_not]
        rintro ⟨h2, _⟩
        exact hs h2
      have c2 : (decide (e.speaker = s ∧ e.delta = -1)) = false := by
        rw [decide_eq_false_iff_not]
        rintro ⟨h2, _⟩
        exact hs h2
      have c3 : (decide (e.speaker = s)) = false := by
        rw [decide_eq_false_iff_not]; exact hs
      rw [c1, c2, c3]
      simp only [Bool.false_eq_true, if_false]
      rw [ihr]
      push_cast
      omega

/-- Helper: counting over a two-element list. -/
theorem countP_pair (p : Event → Bool) (e1 e2 : Event) :
    List.countP p [e1, e2] = (if p e1 then 1 else 0) + (if p e2 then 1 else 0) := by
  simp only [List.countP_cons, List.countP_nil]
  omega

/-- Helper: in the sorted event list of well-formed rows, every prefix has a
nonnegative net delta for every speaker — each end event is preceded by its
matching start event, so the sweep's per-speaker active counts never go
negative. -/
theorem deltaSum_prefix_nonneg (valid : List Utterance)
    (hse : ∀ u ∈ valid, u.start_sec ≤ u.end_sec)
    (p q : List Event) (hpq : sortedEvents valid = p ++ q) (s : String) :
    0 ≤ deltaSum s p := by
  have hsub : ∀ e ∈ p, e ∈ buildEvents valid := by
    intro e he
    apply (sortedEvents_perm valid).subset
    rw [hpq]
    exact List.mem_append_left q he
  have hdel : ∀ e ∈ p, e.delta = 1 ∨ e.delta = -1 :=
    fun e he => buildEvents_delta (hsub e he)
  rw [deltaSum_eq_counts s p hdel]
  have key : p.countP (fun e => e.speaker = s ∧ e.delta = -1)
      ≤ p.countP (fun e => e.speaker = s ∧ e.delta = 1) := by
    rcases List.eq_nil_or_concat p with hp | ⟨p', z, hp⟩
    · subst hp; simp
    · rw [List.concat_eq_append] at hp
      subst hp
      have hsorted := sortedEvents_sorted valid
      rw [hpq] at hsorted
      have hperm : ((p' ++ [z]) ++ q).Perm (buildEvents valid) := by
        rw [← hpq]
        exact sortedEvents_perm valid
      have hxz : ∀ x ∈ p' ++ [z], eventLe x z := by
        intro x hx
        rcases List.mem_append.mp hx with hx1 | hx1
        · have h1 : List.Sorted eventLe (p' ++ [z]) :=
            hsorted.sublist (List.sublist_append_left (p' ++ [z]) q)
          exact (List.pairwise_append.mp h1).2.2 x hx1 z (List.mem_singleton.mpr rfl)
        · rw [List.mem_singleton] at hx1
          subst hx1
          exact eventLe_refl x
      have hzy : ∀ y ∈ q, eventLe z y := by
        intro y hy
        exact (List.pairwise_append.mp hsorted).2.2 z
          (List.mem_append_right p' (List.mem_singleton.mpr rfl)) y hy
      have h1 : (p' ++ [z]).countP (fun e => e.speaker = s ∧ e.delta = -1)
          = (p' ++ [z]).countP (fun e => e.speaker = s ∧ e.delta = -1 ∧ eventLe e z) := by
        apply List.countP_congr
        intro x hx
        simp only [decide_eq_true_eq]
        constructor
        · rintro ⟨ha, hb⟩
          exact ⟨ha, hb, hxz x hx⟩
        · rintro ⟨ha, hb, _⟩
          exact ⟨ha, hb⟩
      have h2 : (p' ++ [z]).countP (fun e => e.speaker = s ∧ e.delta = -1 ∧ eventLe e z)
          ≤ ((p' ++ [z]) ++ q).countP (fun e => e.speaker = s ∧ e.delta = -1 ∧ eventLe e z) := by
        conv_rhs => rw [List.countP_append]
        exact Nat.le_add_right _ _
      have h3 : ((p' ++ [z]) ++ q).countP (fun e => e.speaker = s ∧ e.delta = -1 ∧ eventLe e z)
          = (buildEvents valid).countP (fun e => e.speaker = s ∧ e.delta = -1 ∧ eventLe e z) :=
        hperm.countP_eq _
      have h4 : (buildEvents valid).countP (fun e => e.speaker = s ∧ e.delta = -1 ∧ eventLe e z)
          ≤ (buildEvents valid).countP (fun e => e.speaker = s ∧ e.delta = 1 ∧ eventLt e z) := by
        unfold buildEvents
        rw [countP_flatMap, countP_flatMap]
        apply List.sum_le_sum
        intro u hu
        rw [countP_pair, countP_pair]
        by_cases hus : u.speaker = s
        · by_cases hz : eventLe { t := u.end_sec, delta := -1, speaker := s } z
          · have hz' : eventLe { t := u.end_sec, delta := -1, speaker := u.speaker } z := by
              rw [hus]
              exact hz
            have hlt : eventLt { t := u.start_sec, delta := 1, speaker := u.speaker } z :=
              eventLt_of_lt_of_le (start_lt_end_event (hse u hu)) hz'
            have hlt' : eventLt { t := u.start_sec, delta := 1, speaker := s } z := by
              rw [← hus]
              exact hlt
            simp [hus, hz, hlt']
          · simp [hus, hz]
        · simp [hus]
      have h5 : (buildEvents valid).countP (fun e => e.speaker = s ∧ e.delta = 1 ∧ eventLt e z)
          = ((p' ++ [z]) ++ q).countP (fun e => e.speaker = s ∧ e.delta = 1 ∧ eventLt e z) :=
        (hperm.countP_eq _).symm
      have h6 : q.countP (fun e => e.speaker = s ∧ e.delta = 1 ∧ eventLt e z) = 0 := by
        rw [List.countP_eq_zero]
        intro y hy
        simp only [decide_eq_true_eq]
        rintro ⟨_, _, hc⟩
        exact (eventLe_iff_not_lt.mp (hzy y hy)) hc
      have h7 : ((p' ++ [z]) ++ q).countP (fun e => e.speaker = s ∧ e.delta = 1 ∧ eventLt e z)
          = (p' ++ [z]).countP (fun e => e.speaker = s ∧ e.delta = 1 ∧ eventLt e z) := by
        rw [List.countP_append, h6]
        omega
      have h8 : (p' ++ [z]).countP (fun e => e.speaker = s ∧ e.delta = 1 ∧ eventLt e z)
          ≤ (p' ++ [z]).countP (fun e => e.speaker = s ∧ e.delta = 1) := by
        apply List.countP_mono_left
        intro x _
        simp only [decide_eq_true_eq]
        rintro ⟨ha, hb, _⟩
        exact ⟨ha, hb⟩
      omega
  omega

/-- Helper: net delta of a cons. -/
theorem deltaSum_cons (s : String) (e : Event) (es : List Event) :
    deltaSum s (e :: es) = (if e.speaker = s then e.delta else 0) + deltaSum s es := by
  unfold deltaSum
  rw [List.filter_cons]
  by_cases h : e.speaker = s
  · simp [h]
  · simp [h]

/-- Helper: weighted sum of a cons. -/
theorem weightedSum_cons (s : String) (e : Event) (es : List Event) :
    weightedSum s (e :: es)
      = (if e.speaker = s then -(e.delta : ℚ) * e.t else 0) + weightedSum s es := by
  unfold weightedSum
  rw [List.filter_cons]
  by_cases h : e.speaker = s
  · simp [h]
  · simp [h]

/-- Helper: net delta of an append. -/
theorem deltaSum_append (s : String) (l1 l2 : List Event) :
    deltaSum s (l1 ++ l2) = deltaSum s l1 + deltaSum s l2 := by
  unfold deltaSum
  rw [List.filter_append, List.map_append, List.sum_append]

/-- Helper: net deltas and weighted sums are permutation invariants. -/
theorem deltaSum_perm (s : String) {l1 l2 : List Event} (h : l1.Perm l2) :
    deltaSum s l1 = deltaSum s l2 := by
  unfold deltaSum
  exact ((h.filter _).map _).sum_eq

/-- Helper: weighted sums are permutation invariants. -/
theorem weightedSum_perm (s : String) {l1 l2 : List Event} (h : l1.Perm l2) :
    weightedSum s l1 = weightedSum s l2 := by
  unfold weightedSum
  exact ((h.filter _).map _).sum_eq

/-- Helper: over the full built event list every speaker's net delta is 0 —
each row emits one start (+1) and one end (-1). -/
theorem deltaSum_buildEvents (s : String) (valid : List Utterance) :
    deltaSum s (buildEvents valid) = 0 := by
  induction valid with
  | nil => simp [deltaSum, buildEvents]
  | cons u rest ih =>
    unfold buildEvents at ih ⊢
    rw [List.flatMap_cons, deltaSum_append, ih]
    rw [deltaSum_cons, deltaSum_cons]
    by_cases h : u.speaker = s
    · simp [h, deltaSum]
    · simp [h, deltaSum]

/-- Helper: over the full built event list, a speaker's weighted sum
telescopes to the sum of that speaker's interval lengths. -/
theorem weightedSum_buildEvents (s : String) (valid : List Utterance) :
    weightedSum s (buildEvents valid)
      = ((valid.filter fun u => u.speaker = s).map fun u => u.end_sec - u.start_sec).sum := by
  induction valid with
  | nil => simp [weightedSum, buildEvents]
  | cons u rest ih =>
    unfold buildEvents at ih ⊢
    rw [List.flatMap_cons]
    have happ : ∀ l1 l2 : List Event,
        weightedSum s (l1 ++ l2) = weightedSum s l1 + weightedSum s l2 := by
      intro l1 l2
      unfold weightedSum
      rw [List.filter_append, List.map_append, List.sum_append]
    rw [happ, ih, List.filter_cons]
    by_cases h : u.speaker = s
    · rw [if_pos (show (decide (u.speaker = s)) = true by simp [h])]
      rw [List.map_cons, List.sum_cons, weightedSum_cons, weightedSum_cons]
      have hw0 : weightedSum s ([] : List Event) = 0 := by simp [weightedSum]
      rw [hw0]
      simp [h]
      ring
    · rw [if_neg (show ¬ (decide (u.speaker = s)) = true by simp [h])]
      rw [weightedSum_cons, weightedSum_cons]
      have hw0 : weightedSum s ([] : List Event) = 0 := by simp [weightedSum]
      rw [hw0]
      simp [h]

/-- Helper: a sweep step adds the event's delta to its speaker's active
count and leaves other speakers untouched. -/
theorem sweepStep_active_eq (speakers : List String) (st : SweepState) (e : Event) :
    (sweepStep speakers st e).active
      = Function.update st.active e.speaker (st.active e.speaker + e.delta) := by
  unfold sweepStep
  cases st.last_t with
  | none => rfl
  | some lt =>
    simp only
    split_ifs <;> rfl

/-- Helper: a sweep step adds the event's delta to its speaker's active
count and leaves other speakers untouched. -/
theorem sweepStep_active (speakers : List String) (st : SweepState) (e : Event)
    (s : String) :
    (sweepStep speakers st e).active s
      = st.active s + (if e.speaker = s then e.delta else 0) := by
  rw [sweepStep_active_eq, Function.update_apply]
  by_cases h : s = e.speaker
  · subst h
    simp
  · rw [if_neg h, if_neg (fun heq => h heq.symm)]
    omega

/-- Helper: a speaker's raw-speaking accumulator sums that speaker's
durations. -/
theorem foldl_update_sum (l : List Utterance) : ∀ (f : String → ℚ) (s : String),
    (l.foldl (fun f u => Function.update f u.speaker (f u.speaker + u.duration_sec)) f) s
      = f s + ((l.filter fun u => u.speaker = s).map fun u => u.duration_sec).sum := by
  induction l with
  | nil => intro f s; simp
  | cons u rest ih =>
    intro f s
    rw [List.foldl_cons, ih, List.filter_cons]
    by_cases h : u.speaker = s
    · rw [if_pos (show (decide (u.speaker = s)) = true by simp [h])]
      rw [List.map_cons, List.sum_cons, Function.update_apply, if_pos h.symm, h]
      ring
    · rw [if_neg (show ¬ (decide (u.speaker = s)) = true by simp [h])]
      rw [Function.update_apply, if_neg (fun heq => h heq.symm)]

/-- Helper: a sweep step grows a speaker's apportioned time by at most
`active * (elapsed time)`: the speaker's share of the segment is
`duration / active_count ≤ duration`, and the speaker is only served while
its active count is ≥ 1. -/
theorem sweepStep_app_bound (speakers : List String) (st : SweepState) (e : Event)
    (s : String) (τ : ℚ) (hτ : st.last_t = some τ) (hle : τ ≤ e.t)
    (hcnt : 0 ≤ st.active s) :
    (sweepStep speakers st e).apportioned s
      ≤ st.apportioned s + ((st.active s : Int) : ℚ) * (e.t - τ) := by
  have hd : 0 ≤ e.t - τ := by linarith
  have hc : (0 : ℚ) ≤ ((st.active s : Int) : ℚ) := by exact_mod_cast hcnt
  unfold sweepStep
  rw [hτ]
  simp only
  by_cases ht : τ < e.t
  · rw [if_pos ht]
    by_cases h1 : 1 ≤ active_count speakers st.active
    · rw [if_pos h1]
      have hge1 : (1 : ℚ) ≤ (active_count speakers st.active : ℚ) := by exact_mod_cast h1
      have hmain : (if 0 < st.active s then
            st.apportioned s + (e.t - τ) * (1 / (active_count speakers st.active : ℚ))
          else st.apportioned s)
          ≤ st.apportioned s + ((st.active s : Int) : ℚ) * (e.t - τ) := by
        by_cases hpos : 0 < st.active s
        · rw [if_pos hpos]
          have hc1 : (1 : ℚ) ≤ ((st.active s : Int) : ℚ) := by exact_mod_cast hpos
          have key : (e.t - τ) * (1 / (active_count speakers st.active : ℚ)) ≤ e.t - τ := by
            rw [mul_one_div]
            exact div_le_self hd hge1
          nlinarith [key, hc1, hd]
        · rw [if_neg hpos]
          nlinarith [mul_nonneg hc hd]
      by_cases h2 : 2 ≤ active_count speakers st.active
      · rw [if_pos h2]
        exact hmain
      · rw [if_neg h2]
        exact hmain
    · rw [if_neg h1]
      have h2 : ¬ 2 ≤ active_count speakers st.active := by omega
      rw [if_neg h2]
      nlinarith [mul_nonneg hc hd]
  · rw [if_neg ht]
    nlinarith [mul_nonneg hc hd]

/-- Helper: folding the sweep over a time-sorted event suffix, knowing the
speaker's active count stays nonnegative at every prefix, bounds the
speaker's apportioned gain by the telescoped weighted sum of its events. -/
theorem sweep_app_le (speakers : List String) (s : String) :
    ∀ (es : List Event) (st : SweepState) (τ : ℚ),
      st.last_t = some τ →
      (∀ e ∈ es, τ ≤ e.t) →
      es.Pairwise (fun a b => a.t ≤ b.t) →
      (∀ p q, es = p ++ q → 0 ≤ st.active s + deltaSum s p) →
      ∃ τ' : ℚ, (es.foldl (sweepStep speakers) st).last_t = some τ' ∧ τ ≤ τ' ∧
        (es.foldl (sweepStep speakers) st).apportioned s
          ≤ st.apportioned s + weightedSum s es
            + ((st.active s + deltaSum s es : Int) : ℚ) * τ'
            - ((st.active s : Int) : ℚ) * τ := by
  intro es
  induction es with
  | nil =>
    intro st τ hτ _ _ _
    refine ⟨τ, hτ, le_refl τ, ?_⟩
    simp [weightedSum, deltaSum]
  | cons e rest ih =>
    intro st τ hτ hge hpw hcnt
    have hτe : τ ≤ e.t := hge e (List.mem_cons_self e rest)
    have hc0 : 0 ≤ st.active s := by
      have h := hcnt [] (e :: rest) rfl
      simpa [deltaSum] using h
    have hstep := sweepStep_app_bound speakers st e s τ hτ hτe hc0
    have hact := sweepStep_active speakers st e s
    have hpw' := List.pairwise_cons.mp hpw
    have hcnt' : ∀ p q, rest = p ++ q →
        0 ≤ (sweepStep speakers st e).active s + deltaSum s p := by
      intro p q hpqr
      have h := hcnt (e :: p) q (by rw [hpqr]; rfl)
      rw [deltaSum_cons] at h
      rw [hact, add_assoc]
      exact h
    obtain ⟨τ', hlast, hge', hbound⟩ := ih (sweepStep speakers st e) e.t
      (sweepStep_last_t speakers st e) hpw'.1 hpw'.2 hcnt'
    refine ⟨τ', by rw [List.foldl_cons]; exact hlast, hτe.trans hge', ?_⟩
    rw [List.foldl_cons, weightedSum_cons, deltaSum_cons]
    rw [hact] at hbound
    by_cases hs : e.speaker = s
    · simp only [hs, if_true] at hbound ⊢
      push_cast at hbound ⊢
      linarith
    · simp only [if_neg hs] at hbound ⊢
      push_cast at hbound ⊢
      linarith

/-- C9: for inputs whose valid rows satisfy the data-model invariant
(`start_sec ≤ end_sec` and `duration_sec = end_sec - start_sec`), computing
in exact rational arithmetic, every speaker's apportioned time is at most
that speaker's raw speaking time: equal-split shares of active segments
never exceed the sum of the speaker's own interval durations. -/
theorem apportioned_le_raw (utts : List Utterance)
    (hwf : ∀ u ∈ utts, u.valid_time = true →
      u.start_sec ≤ u.end_sec ∧ u.duration_sec = u.end_sec - u.start_sec)
    (s : String) :
    (compute_timeline_stats utts).apportioned s
      ≤ (compute_timeline_stats utts).raw_speaking s := by
  unfold compute_timeline_stats
  by_cases hv : (utts.filter fun u => u.valid_time).isEmpty
  · rw [if_pos hv]
  · rw [if_neg hv]
    simp only
    have hse : ∀ u ∈ utts.filter (fun u => u.valid_time), u.start_sec ≤ u.end_sec := by
      intro u hu
      exact (hwf u (List.mem_of_mem_filter hu)
        (by simpa using (List.mem_filter.mp hu).2)).1
    have hdur : ∀ u ∈ utts.filter (fun u => u.valid_time),
        u.duration_sec = u.end_sec - u.start_sec := by
      intro u hu
      exact (hwf u (List.mem_of_mem_filter hu)
        (by simpa using (List.mem_filter.mp hu).2)).2
    have hraw : ((utts.filter fun u => u.valid_time).foldl
          (fun f u => Function.update f u.speaker (f u.speaker + u.duration_sec))
          (fun _ => (0 : ℚ))) s
        = (((utts.filter fun u => u.valid_time).filter fun u => u.speaker = s).map
            fun u => u.end_sec - u.start_sec).sum := by
      rw [foldl_update_sum]
      have : (((utts.filter fun u => u.valid_time).filter fun u => u.speaker = s).map
            fun u => u.duration_sec)
          = (((utts.filter fun u => u.valid_time).filter fun u => u.speaker = s).map
            fun u => u.end_sec - u.start_sec) := by
        apply List.map_congr_left
        intro u hu
        exact hdur u (List.mem_of_mem_filter hu)
      rw [this]
      norm_num
    have hWb := weightedSum_buildEvents s (utts.filter fun u => u.valid_time)
    cases hsort : sortedEvents (utts.filter fun u => u.valid_time) with
    | nil =>
      rw [hraw]
      have h0 : (List.foldl
          (sweepStep ((List.map (fun u => u.speaker) (utts.filter fun u => u.valid_time)).dedup))
          initSweep []).apportioned s = 0 := rfl
      rw [h0]
      apply List.sum_nonneg
      intro x hx
      obtain ⟨u, hu, hux⟩ := List.mem_map.mp hx
      rw [← hux]
      have := hse u (List.mem_of_mem_filter hu)
      linarith
    | cons e0 rest =>
      rw [List.foldl_cons]
      have h0app : (sweepStep ((List.map (fun u => u.speaker)
            (utts.filter fun u => u.valid_time)).dedup) initSweep e0).apportioned s = 0 := by
        have h := (sweepStep_of_none ((List.map (fun u => u.speaker)
          (utts.filter fun u => u.valid_time)).dedup) initSweep e0 rfl).2.2
        rw [h]
        rfl
      have h0act : (sweepStep ((List.map (fun u => u.speaker)
            (utts.filter fun u => u.valid_time)).dedup) initSweep e0).active s
          = (if e0.speaker = s then e0.delta else 0) := by
        rw [sweepStep_active]
        simp [initSweep]
      have hsorted := sortedEvents_sorted (utts.filter fun u => u.valid_time)
      rw [hsort] at hsorted
      have hpc := List.pairwise_cons.mp hsorted
      have hcnt : ∀ p q, rest = p ++ q →
          0 ≤ (sweepStep ((List.map (fun u => u.speaker)
              (utts.filter fun u => u.valid_time)).dedup) initSweep e0).active s
            + deltaSum s p := by
        intro p q hpq'
        have h := deltaSum_prefix_nonneg (utts.filter fun u => u.valid_time) hse
          (e0 :: p) q (by rw [hsort, hpq']; rfl) s
        rw [deltaSum_cons] at h
        rw [h0act]
        exact h
      obtain ⟨τ', hlast, hge', hbound⟩ := sweep_app_le
        ((List.map (fun u => u.speaker) (utts.filter fun u => u.valid_time)).dedup) s rest
        (sweepStep _ initSweep e0) e0.t (sweepStep_last_t _ initSweep e0)
        (fun x hx => eventLe_time (hpc.1 x hx))
        (hpc.2.imp fun h => eventLe_time h) hcnt
      rw [h0app, h0act] at hbound
      have hzero : (if e0.speaker = s then e0.delta else 0) + deltaSum s rest = 0 := by
        have h1 : deltaSum s (e0 :: rest) = 0 := by
          rw [← hsort, deltaSum_perm s (sortedEvents_perm _), deltaSum_buildEvents]
        rw [deltaSum_cons] at h1
        exact h1
      have hWfull : (if e0.speaker = s then -(e0.delta : ℚ) * e0.t else 0)
            + weightedSum s rest
          = weightedSum s (buildEvents (utts.filter fun u => u.valid_time)) := by
        rw [← weightedSum_cons, ← hsort, weightedSum_perm s (sortedEvents_perm _)]
      rw [hraw, ← hWb, ← hWfull]
      by_cases hs : e0.speaker = s
      · simp only [hs, if_true] at hbound hzero ⊢
        have hco : ((e0.delta + deltaSum s rest : Int) : ℚ) = 0 := by
          exact_mod_cast congrArg (fun n : Int => (n : ℚ)) hzero
        push_cast at hbound hco ⊢
        have hat : (↑e0.delta + ↑(deltaSum s rest) : ℚ) * τ' = 0 := by
          rw [hco]
          ring
        nlinarith [hbound, hat]
      · simp only [if_neg hs] at hbound hzero ⊢
        have hco : ((deltaSum s rest : Int) : ℚ) = 0 := by
          have h : deltaSum s rest = 0 := by omega
          exact_mod_cast h
        push_cast at hbound ⊢
        rw [hco] at hbound
        linarith

/-- Witness for C9 at the partial-overlap example, speaker A. -/
theorem apportioned_le_raw_witness :
    (compute_timeline_stats exOverlap).apportioned "A"
      ≤ (compute_timeline_stats exOverlap).raw_speaking "A" :=
  apportioned_le_raw exOverlap (by
    intro u hu
    fin_cases hu <;> norm_num [exOverlap, mkValid]) "A"
